import Mathlib

/-!
Verification of the `closer` package (Go): a shutdown-coordination
primitive.  The source (`closer.go`) defines a `Closer` holding

  * `mu    sync.Mutex`    protecting the `funcs` slice,
  * `once  sync.Once`     ensuring `CloseAll` runs its body once,
  * `done  chan struct{}` (buffered, capacity 1) signalling completion,
  * `funcs []closeFunc`   the registered cleanup functions.

`CloseAll` does, inside `once.Do`:
  swap `c.funcs` out for `nil` under the mutex, make
  `errs := make(chan error, len(funcs))`, spawn one goroutine per
  function (each runs `fn()` then sends the result on `errs` and calls
  `wg.Done()`), spawn a goroutine doing `wg.Wait(); close(errs)`, then
  in the calling goroutine receive from `errs` until it is closed,
  logging each non-nil error, then send on `c.done` and (deferred)
  close `c.done`.  `Wait` receives from `c.done`.  `New(sigs...)`
  spawns, when `sigs` is non-empty, a watcher goroutine that receives
  one OS signal, calls `signal.Stop`, and invokes `c.CloseAll()`.

We embed this as a small-step interleaving semantics.  Each goroutine
kind has a program counter; `stepThread` gives the (deterministic)
effect of scheduling a given thread, returning `none` when that thread
is blocked or has finished.  Cleanup functions are opaque: an action is
represented by the boolean saying whether it returns a non-nil error.
The state records an event trace (action executions, outcomes received,
log lines, the send on `done`, the close of `done`) so that the claimed
counting and ordering properties can be stated.
-/

namespace Closer

/-- State of the `sync.Once` latch: `u` = never used, `r` = the winning
call's function is running (other `Do` callers block), `d` = done. -/
inductive OnceSt
  | u | r | d
deriving DecidableEq

/-- Program counter of a goroutine that calls `CloseAll`.
`atDo` = about to enter `once.Do`; `spawn k` = winner, has drained the
list and spawned `k` worker goroutines so far; `recvLoop` = winner,
receiving from `errs`; `sendDone` = winner, about to send on `done`;
`closeFin` = winner, about to run the deferred `close(done)` (after
which `once.Do` marks the latch done); `returned` = `CloseAll`
returned. -/
inductive CPC
  | atDo
  | spawn (k : Nat)
  | recvLoop
  | sendDone
  | closeFin
  | returned
deriving DecidableEq

/-- Program counter of a worker goroutine (one per drained action):
`pending` = `fn()` not yet run; `ran` = `fn()` returned, result not yet
sent on `errs`; `fin` = result sent and `wg.Done()` executed. -/
inductive WSt
  | pending | ran | fin
deriving DecidableEq

/-- Events recorded in the trace.  `exec i` = action `i` of the drained
list ran; `outcome e` = the winner's receive loop processed one result
(`e` = it was a non-nil error); `logged` = a diagnostic log line was
emitted; `dSend` = the send on the `done` channel; `dClose` = the close
of the `done` channel; `protoStart` = a `CloseAll` caller won the
`once` latch and started the protocol. -/
inductive Ev
  | exec (i : Nat)
  | outcome (e : Bool)
  | logged
  | dSend
  | dClose
  | protoStart
deriving DecidableEq

/-- Whole-system state: the `Closer`'s fields, the channels, and the
program counters of every goroutine.  `funcs` is the `Closer`'s slice;
`loc` is the winner's drained local copy (`funcs` inside the `once.Do`
body); `errsBuf`/`errsClosed` model the buffered `errs` channel
(capacity `loc.length`); `doneBuf`/`doneClosed` model the buffered
(capacity 1) `done` channel; `waiters` are goroutines in `Wait`
(`true` = released); `watchers` counts signal-watcher goroutines still
listening; `sigPending` counts delivered-but-unconsumed OS signals;
`adder` is an optional pending `Add` call with its payload. -/
structure Sys where
  once : OnceSt
  funcs : List Bool
  loc : List Bool
  callers : List CPC
  workers : List WSt
  wgc : Bool
  errsBuf : List Bool
  errsClosed : Bool
  doneBuf : Nat
  doneClosed : Bool
  waiters : List Bool
  watchers : Nat
  sigPending : Nat
  adder : Option (List Bool)
  trace : List Ev
deriving DecidableEq

/-- `nth l i` is element `i` of `l`, if it exists. -/
def nth {α : Type} : List α → Nat → Option α
  | [], _ => none
  | x :: _, 0 => some x
  | _ :: xs, n + 1 => nth xs n

/-- `setN l i x` replaces element `i` of `l` by `x` (no-op out of range). -/
def setN {α : Type} : List α → Nat → α → List α
  | [], _, _ => []
  | _ :: xs, 0, x => x :: xs
  | y :: xs, n + 1, x => y :: setN xs n x

/-- `isFin w` holds when a worker goroutine has completely finished. -/
def isFin : WSt → Bool
  | .fin => true
  | _ => false

/-- One scheduling step of a goroutine that calls `CloseAll` (thread
`i` of `callers`): the `once.Do` entry, the drain-and-swap, the spawn
loop, the `errs` receive loop with error logging, the send on `done`,
and the deferred close.  Translated from `Closer.CloseAll`. -/
def stepCaller (s : Sys) (i : Nat) : Option Sys :=
  match nth s.callers i with
  | none => none
  | some .atDo =>
    match s.once with
    | .u => some { s with once := .r,
                          loc := s.funcs,
                          funcs := [],
                          errsBuf := [],
                          errsClosed := false,
                          callers := setN s.callers i (.spawn 0),
                          trace := .protoStart :: s.trace }
    | .r => none
    | .d => some { s with callers := setN s.callers i .returned }
  | some (.spawn k) =>
    if k < s.loc.length then
      some { s with workers := s.workers ++ [.pending],
                    callers := setN s.callers i (.spawn (k + 1)) }
    else
      some { s with wgc := true,
                    callers := setN s.callers i .recvLoop }
  | some .recvLoop =>
    match s.errsBuf with
    | e :: rest =>
      some { s with errsBuf := rest,
                    trace := (if e then [Ev.logged] else []) ++ .outcome e :: s.trace }
    | [] =>
      if s.errsClosed then
        some { s with callers := setN s.callers i .sendDone }
      else none
  | some .sendDone =>
    if s.doneBuf = 0 ∧ s.doneClosed = false then
      some { s with doneBuf := 1,
                    callers := setN s.callers i .closeFin,
                    trace := .dSend :: s.trace }
    else none
  | some .closeFin =>
    some { s with doneClosed := true,
                  once := .d,
                  callers := setN s.callers i .returned,
                  trace := .dClose :: s.trace }
  | some .returned => none

/-- One scheduling step of worker goroutine `i`: run `fn()` (recording
its execution), then send the result on the buffered `errs` channel
(capacity `loc.length` = `len(funcs)` at `make` time) and run the
deferred `wg.Done()`. -/
def stepWorker (s : Sys) (i : Nat) : Option Sys :=
  match nth s.workers i with
  | none => none
  | some .pending =>
    some { s with workers := setN s.workers i .ran,
                  trace := .exec i :: s.trace }
  | some .ran =>
    if s.errsBuf.length < s.loc.length then
      some { s with errsBuf := s.errsBuf ++ [(nth s.loc i).getD false],
                    workers := setN s.workers i .fin }
    else none
  | some .fin => none

/-- One scheduling step of the `wg.Wait(); close(errs)` goroutine:
enabled once every worker has run `wg.Done()`. -/
def stepWgc (s : Sys) : Option Sys :=
  if s.wgc = true ∧ s.errsClosed = false ∧ s.workers.all isFin then
    some { s with errsClosed := true }
  else none

/-- One scheduling step of a goroutine blocked in `Wait` (thread `i` of
`waiters`): `<-c.done` succeeds by consuming the buffered value or,
once the channel is closed, without consuming anything. -/
def stepWaiter (s : Sys) (i : Nat) : Option Sys :=
  match nth s.waiters i with
  | none => none
  | some true => none
  | some false =>
    if 0 < s.doneBuf then
      some { s with doneBuf := s.doneBuf - 1,
                    waiters := setN s.waiters i true }
    else if s.doneClosed then
      some { s with waiters := setN s.waiters i true }
    else none

/-- One scheduling step of the signal-watcher goroutine spawned by
`New`: it blocks until a watched signal is delivered, then stops
listening (`signal.Stop`) and calls `c.CloseAll()` — modelled by the
watcher continuing as a fresh `CloseAll` caller. -/
def stepWatcher (s : Sys) : Option Sys :=
  if 0 < s.watchers ∧ 0 < s.sigPending then
    some { s with watchers := s.watchers - 1,
                  sigPending := s.sigPending - 1,
                  callers := s.callers ++ [.atDo] }
  else none

/-- One scheduling step of a goroutine performing a pending `Add` call:
under the mutex it appends its payload to the `Closer`'s list. -/
def stepAdder (s : Sys) : Option Sys :=
  match s.adder with
  | none => none
  | some g => some { s with funcs := s.funcs ++ g, adder := none }

/-- Thread identifiers for the scheduler. -/
inductive Tid
  | caller (i : Nat)
  | worker (i : Nat)
  | wgcloser
  | waiter (i : Nat)
  | watcher
  | adder
deriving DecidableEq

/-- Deterministic effect of scheduling thread `t`: `none` when `t` is
blocked or finished. -/
def stepThread (t : Tid) (s : Sys) : Option Sys :=
  match t with
  | .caller i => stepCaller s i
  | .worker i => stepWorker s i
  | .wgcloser => stepWgc s
  | .waiter i => stepWaiter s i
  | .watcher => stepWatcher s
  | .adder => stepAdder s

/-- Run a schedule (list of thread choices); fails if a chosen thread
cannot step. -/
def runSched (s : Sys) : List Tid → Option Sys
  | [] => some s
  | t :: ts =>
    match stepThread t s with
    | none => none
    | some s' => runSched s' ts

/-- `Reach s s'`: state `s'` arises from `s` under some interleaving. -/
def Reach (s s' : Sys) : Prop := ∃ l, runSched s l = some s'

/-- `Final s`: no thread can take a step (every goroutine is finished
or blocked forever). -/
def Final (s : Sys) : Prop := ∀ t, stepThread t s = none

/-- Initial state: `funcs` registered via `Add`, `nc` goroutines about
to call `CloseAll`, `nw` goroutines blocked in `Wait`, `nwatch`
signal-watcher goroutines, `sp` pending OS signals, and optionally one
pending concurrent `Add` call. -/
def mkSys (fs : List Bool) (nc nw nwatch sp : Nat)
    (adds : Option (List Bool)) : Sys :=
  { once := .u
    funcs := fs
    loc := []
    callers := List.replicate nc .atDo
    workers := []
    wgc := false
    errsBuf := []
    errsClosed := false
    doneBuf := 0
    doneClosed := false
    waiters := List.replicate nw false
    watchers := nwatch
    sigPending := sp
    adder := adds
    trace := [] }

/-- `New(sigs...)` followed by registrations: the constructor creates
the `done` channel with capacity 1 and starts one watcher goroutine
exactly when the signal list is non-empty (`if len(sigs) > 0`). -/
def newSys (sigs : List Nat) (fs : List Bool) (nc nw sp : Nat)
    (adds : Option (List Bool)) : Sys :=
  mkSys fs nc nw (if 0 < sigs.length then 1 else 0) sp adds

/-! ### Counting helpers -/

/-- Number of elements of a list satisfying a boolean predicate. -/
def bcnt {α : Type} (p : α → Bool) : List α → Nat
  | [] => 0
  | x :: xs => (if p x then 1 else 0) + bcnt p xs

/-- Number of occurrences of the event `e` in a trace. -/
def cnt (e : Ev) (tr : List Ev) : Nat := bcnt (fun x => decide (x = e)) tr

/-- Recognizer of `outcome` events. -/
def isOut : Ev → Bool
  | .outcome _ => true
  | _ => false

/-- Recognizer of error (`outcome true`) events. -/
def isErrOut : Ev → Bool
  | .outcome true => true
  | _ => false

/-- Number of outcomes processed so far (results received from `errs`). -/
def outCount (tr : List Ev) : Nat := bcnt isOut tr

/-- Number of error outcomes processed so far. -/
def errOutCount (tr : List Ev) : Nat := bcnt isErrOut tr

/-- Whether a `CloseAll` caller's pc is inside the winning `once.Do`
body (between winning the latch and the latch being marked done). -/
def isProto : CPC → Bool
  | .atDo => false
  | .returned => false
  | _ => true

/-- Number of errors already sent on `errs` by finished workers:
counts positions where the worker is `fin` and its action errs. -/
def finErr : List WSt → List Bool → Nat
  | [], _ => 0
  | _ :: _, [] => 0
  | w :: ws, e :: es => (if isFin w && e then 1 else 0) + finErr ws es

/-- Sum of a natural-valued function over a list. -/
def sumBy {α : Type} (f : α → Nat) : List α → Nat
  | [] => 0
  | x :: xs => f x + sumBy f xs

/-! ### List helper lemmas -/

theorem length_setN {α : Type} (l : List α) (i : Nat) (x : α) :
    (setN l i x).length = l.length := by
  induction l generalizing i with
  | nil => rfl
  | cons y ys ih =>
    cases i with
    | zero => rfl
    | succ n => simpa [setN] using ih n

theorem nth_lt_length {α : Type} {l : List α} {i : Nat} {y : α}
    (h : nth l i = some y) : i < l.length := by
  induction l generalizing i with
  | nil => simp [nth] at h
  | cons z zs ih =>
    cases i with
    | zero => simp
    | succ n => exact Nat.succ_lt_succ (ih (by simpa [nth] using h))

theorem nth_none_of_le {α : Type} {l : List α} {i : Nat}
    (h : l.length ≤ i) : nth l i = none := by
  induction l generalizing i with
  | nil => rfl
  | cons z zs ih =>
    cases i with
    | zero => simp at h
    | succ n => exact ih (Nat.le_of_succ_le_succ h)

theorem nth_of_lt {α : Type} {l : List α} {i : Nat}
    (h : i < l.length) : ∃ y, nth l i = some y := by
  induction l generalizing i with
  | nil => simp at h
  | cons z zs ih =>
    cases i with
    | zero => exact ⟨z, rfl⟩
    | succ n => exact ih (Nat.lt_of_succ_lt_succ h)

theorem nth_setN_self {α : Type} {l : List α} {i : Nat} {y : α}
    (h : nth l i = some y) (x : α) : nth (setN l i x) i = some x := by
  induction l generalizing i with
  | nil => simp [nth] at h
  | cons z zs ih =>
    cases i with
    | zero => rfl
    | succ n => simpa [setN, nth] using ih (by simpa [nth] using h)

theorem nth_setN_ne {α : Type} (l : List α) (i j : Nat) (x : α)
    (h : i ≠ j) : nth (setN l i x) j = nth l j := by
  induction l generalizing i j with
  | nil => rfl
  | cons z zs ih =>
    cases i with
    | zero =>
      cases j with
      | zero => exact absurd rfl h
      | succ m => rfl
    | succ n =>
      cases j with
      | zero => rfl
      | succ m => simpa [setN, nth] using ih n m (fun hc => h (by simp [hc]))

theorem nth_append_lt {α : Type} {l : List α} (m : List α) {j : Nat}
    (h : j < l.length) : nth (l ++ m) j = nth l j := by
  induction l generalizing j with
  | nil => simp at h
  | cons z zs ih =>
    cases j with
    | zero => rfl
    | succ n => simpa [nth] using ih (Nat.lt_of_succ_lt_succ h)

theorem nth_append_length {α : Type} (l : List α) (x : α) :
    nth (l ++ [x]) l.length = some x := by
  induction l with
  | nil => rfl
  | cons z zs ih => simpa [nth] using ih

theorem nth_replicate {α : Type} (n i : Nat) (a : α) :
    nth (List.replicate n a) i = if i < n then some a else none := by
  induction n generalizing i with
  | zero => simp [nth]
  | succ m ih =>
    cases i with
    | zero => simp [List.replicate, nth]
    | succ k => simpa [List.replicate, nth, Nat.succ_lt_succ_iff] using ih k

theorem bcnt_append {α : Type} (p : α → Bool) (l m : List α) :
    bcnt p (l ++ m) = bcnt p l + bcnt p m := by
  induction l with
  | nil => simp [bcnt]
  | cons x xs ih => simp [bcnt, ih, Nat.add_assoc]

theorem bcnt_setN {α : Type} {l : List α} {i : Nat} {y : α}
    (h : nth l i = some y) (p : α → Bool) (x : α) :
    bcnt p (setN l i x) + (if p y then 1 else 0)
      = bcnt p l + (if p x then 1 else 0) := by
  induction l generalizing i with
  | nil => simp [nth] at h
  | cons z zs ih =>
    cases i with
    | zero =>
      simp only [nth] at h
      cases h
      simp [setN, bcnt]; omega
    | succ n =>
      have := ih (i := n) (by simpa [nth] using h)
      simp only [setN, bcnt]
      omega

theorem bcnt_pos {α : Type} {l : List α} {i : Nat} {y : α}
    (h : nth l i = some y) (p : α → Bool) (hy : p y = true) :
    0 < bcnt p l := by
  induction l generalizing i with
  | nil => simp [nth] at h
  | cons z zs ih =>
    cases i with
    | zero =>
      simp only [nth] at h
      cases h
      simp [bcnt, hy]
    | succ n =>
      have := ih (i := n) (by simpa [nth] using h)
      simp only [bcnt]
      omega

theorem bcnt_zero {α : Type} {l : List α} (p : α → Bool)
    (h : bcnt p l = 0) {i : Nat} {y : α} (hi : nth l i = some y) :
    p y = false := by
  by_contra hy
  have := bcnt_pos hi p (by revert hy; cases p y <;> simp)
  omega

theorem bcnt_le_length {α : Type} (p : α → Bool) (l : List α) :
    bcnt p l ≤ l.length := by
  induction l with
  | nil => simp [bcnt]
  | cons x xs ih =>
    simp only [bcnt, List.length_cons]
    split <;> omega

theorem bcnt_eq_length {α : Type} {p : α → Bool} {l : List α}
    (h : ∀ i y, nth l i = some y → p y = true) :
    bcnt p l = l.length := by
  induction l with
  | nil => rfl
  | cons x xs ih =>
    have hx : p x = true := h 0 x rfl
    have : bcnt p xs = xs.length :=
      ih (fun i y hy => h (i + 1) y (by simpa [nth] using hy))
    simp [bcnt, hx, this, Nat.add_comm]

theorem all_eq_forall_nth {α : Type} (p : α → Bool) (l : List α) :
    l.all p = true ↔ ∀ i y, nth l i = some y → p y = true := by
  induction l with
  | nil => simp [nth]
  | cons x xs ih =>
    simp only [List.all_cons, Bool.and_eq_true, ih]
    constructor
    · rintro ⟨hx, hall⟩ i y hy
      cases i with
      | zero => simp only [nth] at hy; cases hy; exact hx
      | succ n => exact hall n y (by simpa [nth] using hy)
    · intro h
      exact ⟨h 0 x rfl, fun i y hy => h (i + 1) y (by simpa [nth] using hy)⟩

theorem sumBy_append {α : Type} (f : α → Nat) (l m : List α) :
    sumBy f (l ++ m) = sumBy f l + sumBy f m := by
  induction l with
  | nil => simp [sumBy]
  | cons x xs ih => simp [sumBy, ih, Nat.add_assoc]

theorem sumBy_setN {α : Type} {l : List α} {i : Nat} {y : α}
    (h : nth l i = some y) (f : α → Nat) (x : α) :
    sumBy f (setN l i x) + f y = sumBy f l + f x := by
  induction l generalizing i with
  | nil => simp [nth] at h
  | cons z zs ih =>
    cases i with
    | zero =>
      simp only [nth] at h
      cases h
      simp [setN, sumBy]; omega
    | succ n =>
      have := ih (i := n) (by simpa [nth] using h)
      simp only [setN, sumBy]
      omega

theorem sumBy_le_sumBy {α : Type} {f g : α → Nat} {l : List α}
    (h : ∀ i y, nth l i = some y → f y ≤ g y) :
    sumBy f l ≤ sumBy g l := by
  induction l with
  | nil => simp [sumBy]
  | cons x xs ih =>
    have hx := h 0 x rfl
    have : sumBy f xs ≤ sumBy g xs :=
      ih (fun i y hy => h (i + 1) y (by simpa [nth] using hy))
    simp only [sumBy]
    omega

theorem finErr_append_pending (ws : List WSt) (es : List Bool) :
    finErr (ws ++ [.pending]) es = finErr ws es := by
  induction ws generalizing es with
  | nil => cases es <;> simp [finErr, isFin]
  | cons w ws ih =>
    cases es with
    | nil => simp [finErr]
    | cons e es => simp [finErr, ih]

theorem finErr_setN_fin {ws : List WSt} {i : Nat} {w : WSt}
    (h : nth ws i = some w) (hw : isFin w = false) {es : List Bool}
    (hlen : i < es.length) :
    finErr (setN ws i .fin) es
      = finErr ws es + (if (nth es i).getD false then 1 else 0) := by
  induction ws generalizing i es with
  | nil => simp [nth] at h
  | cons z zs ih =>
    cases es with
    | nil => simp at hlen
    | cons e es =>
      cases i with
      | zero =>
        simp only [nth] at h
        cases h
        simp only [setN, finErr, nth, Option.getD_some]
        rw [hw]
        cases e <;> (simp [isFin]; try omega)
      | succ n =>
        have := ih (i := n) (by simpa [nth] using h)
          (Nat.lt_of_succ_lt_succ hlen)
        simp only [setN, finErr, nth]
        omega

theorem finErr_all_fin {ws : List WSt} {es : List Bool}
    (hall : ∀ i w, nth ws i = some w → w = .fin)
    (hlen : ws.length = es.length) :
    finErr ws es = bcnt (fun b => b) es := by
  induction ws generalizing es with
  | nil => cases es with
    | nil => rfl
    | cons e es => simp at hlen
  | cons w ws ih =>
    cases es with
    | nil => simp at hlen
    | cons e es =>
      have hw : w = .fin := hall 0 w rfl
      subst hw
      have := ih (fun i x hx => hall (i + 1) x (by simpa [nth] using hx))
        (by simpa using hlen)
      simp [finErr, bcnt, isFin, this]

theorem finErr_le (ws : List WSt) (es : List Bool) :
    finErr ws es ≤ bcnt isFin ws := by
  induction ws generalizing es with
  | nil => simp [finErr, bcnt]
  | cons w ws ih =>
    cases es with
    | nil => simp [finErr, bcnt]
    | cons e es =>
      have := ih es
      simp only [finErr, bcnt]
      cases hw : isFin w <;> cases e <;> simp <;> omega

theorem bcnt_two {α : Type} {l : List α} {p : α → Bool} {i j : Nat}
    {y z : α} (hij : i ≠ j) (hi : nth l i = some y) (hj : nth l j = some z)
    (hy : p y = true) (hz : p z = true) : 2 ≤ bcnt p l := by
  induction l generalizing i j with
  | nil => simp [nth] at hi
  | cons x xs ih =>
    cases i with
    | zero =>
      simp only [nth] at hi
      cases hi
      cases j with
      | zero => exact absurd rfl hij
      | succ m =>
        have := bcnt_pos (l := xs) (by simpa [nth] using hj) p hz
        simp [bcnt, hy]
        omega
    | succ n =>
      cases j with
      | zero =>
        simp only [nth] at hj
        cases hj
        have := bcnt_pos (l := xs) (by simpa [nth] using hi) p hy
        simp [bcnt, hz]
        omega
      | succ m =>
        have := ih (i := n) (j := m) (fun hc => hij (by simp [hc]))
          (by simpa [nth] using hi) (by simpa [nth] using hj)
        simp only [bcnt]
        omega

theorem bcnt_lt_length {α : Type} {l : List α} {p : α → Bool} {i : Nat}
    {y : α} (hi : nth l i = some y) (hy : p y = false) :
    bcnt p l + 1 ≤ l.length := by
  induction l generalizing i with
  | nil => simp [nth] at hi
  | cons x xs ih =>
    cases i with
    | zero =>
      simp only [nth] at hi
      cases hi
      have := bcnt_le_length p xs
      simp [bcnt, hy]
      omega
    | succ n =>
      have := ih (i := n) (by simpa [nth] using hi)
      simp only [bcnt, List.length_cons]
      split <;> omega

/-- Simp lemma: counting over a cons cell. -/
@[simp] theorem bcnt_cons {α : Type} (p : α → Bool) (x : α) (xs : List α) :
    bcnt p (x :: xs) = (if p x then 1 else 0) + bcnt p xs := rfl

/-- Simp lemma: event counting over a cons cell. -/
@[simp] theorem cnt_cons (e a : Ev) (tr : List Ev) :
    cnt e (a :: tr) = (if a = e then 1 else 0) + cnt e tr := by
  simp [cnt, bcnt]

@[simp] theorem cnt_nil (e : Ev) : cnt e [] = 0 := rfl

@[simp] theorem outCount_cons (a : Ev) (tr : List Ev) :
    outCount (a :: tr) = (if isOut a then 1 else 0) + outCount tr := rfl

@[simp] theorem outCount_nil : outCount [] = 0 := rfl

@[simp] theorem errOutCount_cons (a : Ev) (tr : List Ev) :
    errOutCount (a :: tr) = (if isErrOut a then 1 else 0) + errOutCount tr := rfl

@[simp] theorem errOutCount_nil : errOutCount [] = 0 := rfl

/-! ### The global invariant

`Inv s` collects the facts preserved by every scheduling step.  It ties
the `once` latch to the callers' program counters, the winner's pc to
the channel states, and the event trace to the goroutine states. -/

/-- Boolean recognizer of the `returned` pc. -/
def isRet : CPC → Bool
  | .returned => true
  | _ => false

structure Inv (s : Sys) : Prop where
  uCallers : s.once = .u → bcnt isProto s.callers = 0 ∧ bcnt isRet s.callers = 0
  uState : s.once = .u → s.loc = [] ∧ s.workers = [] ∧ s.wgc = false ∧
    s.errsBuf = [] ∧ s.errsClosed = false ∧ s.doneBuf = 0 ∧
    s.doneClosed = false ∧ s.trace = []
  rUniq : s.once = .r → bcnt isProto s.callers = 1 ∧ bcnt isRet s.callers = 0
  dProto : s.once = .d → bcnt isProto s.callers = 0
  protoOnce : ∀ i pc, nth s.callers i = some pc → isProto pc = true → s.once = .r
  retOnce : ∀ i, nth s.callers i = some .returned → s.once = .d
  dClosed : s.once = .d ↔ s.doneClosed = true
  spawnFacts : ∀ i k, nth s.callers i = some (.spawn k) →
    s.workers.length = k ∧ k ≤ s.loc.length ∧ s.wgc = false ∧
    s.errsClosed = false ∧ cnt .dSend s.trace = 0
  recvFacts : ∀ i, nth s.callers i = some .recvLoop →
    s.wgc = true ∧ cnt .dSend s.trace = 0
  sendFacts : ∀ i, nth s.callers i = some .sendDone →
    s.errsClosed = true ∧ s.errsBuf = [] ∧ cnt .dSend s.trace = 0
  cfFacts : ∀ i, nth s.callers i = some .closeFin →
    cnt .dSend s.trace = 1 ∧ s.doneClosed = false
  wLen : s.workers.length ≤ s.loc.length
  wgcLen : s.wgc = true → s.workers.length = s.loc.length
  closedFin : s.errsClosed = true → s.wgc = true ∧
    ∀ i w, nth s.workers i = some w → w = .fin
  bufAcct : s.errsBuf.length + outCount s.trace = bcnt isFin s.workers
  errAcct : bcnt (fun b => b) s.errsBuf + errOutCount s.trace = finErr s.workers s.loc
  logAcct : cnt .logged s.trace = errOutCount s.trace
  execNone : ∀ i, s.workers.length ≤ i → cnt (.exec i) s.trace = 0
  execPend : ∀ i, nth s.workers i = some .pending → cnt (.exec i) s.trace = 0
  execRun : ∀ i w, nth s.workers i = some w → w ≠ .pending →
    cnt (.exec i) s.trace = 1
  dbufLe : s.doneBuf ≤ cnt .dSend s.trace
  dsendLe : cnt .dSend s.trace ≤ 1
  dcloseAcct : cnt .dClose s.trace = (if s.doneClosed = true then 1 else 0)
  pstartAcct : cnt .protoStart s.trace = (if s.once = .u then 0 else 1)
  dsendDone : cnt .dSend s.trace = 1 → s.errsClosed = true ∧ s.errsBuf = [] ∧
    outCount s.trace = s.loc.length ∧ s.workers.length = s.loc.length
  waiterRel : ∀ i, nth s.waiters i = some true → cnt .dSend s.trace = 1
  closedSend : s.doneClosed = true → cnt .dSend s.trace = 1

/-- In state `.r` the caller inside the protocol is unique. -/
theorem Inv.protoUniq {s : Sys} (h : Inv s) {i j : Nat} {pc pc' : CPC}
    (hi : nth s.callers i = some pc) (hpi : isProto pc = true)
    (hj : nth s.callers j = some pc') (hpj : isProto pc' = true) : i = j := by
  by_contra hij
  have hr := h.protoOnce i pc hi hpi
  have h1 := (h.rUniq hr).1
  have := bcnt_two hij hi hj hpi hpj
  omega

/-- The `done` channel carries a value or is closed only after the
send on `done` happened. -/
theorem Inv.doneSet {s : Sys} (h : Inv s)
    (hd : 0 < s.doneBuf ∨ s.doneClosed = true) : cnt .dSend s.trace = 1 := by
  rcases hd with hd | hd
  · have := h.dbufLe
    have := h.dsendLe
    omega
  · exact h.closedSend hd

/-- While a worker goroutine is unfinished, the `once` latch is in its
running state. -/
theorem Inv.onceR_of_worker {s : Sys} (h : Inv s) {i : Nat} {w : WSt}
    (hw : nth s.workers i = some w) (hfin : isFin w = false) : s.once = .r := by
  cases honce : s.once with
  | u =>
    have := (h.uState honce).2.1
    rw [this] at hw
    simp [nth] at hw
  | r => rfl
  | d =>
    have hdc : s.doneClosed = true := h.dClosed.mp honce
    have h1 := h.closedSend hdc
    have hcl := (h.dsendDone h1).1
    have := (h.closedFin hcl).2 i w hw
    subst this
    simp [isFin] at hfin

/-- Positions of an element after a single-point update. -/
theorem nth_setN_cases {α : Type} {l : List α} {i j : Nat} {x z y : α}
    (hy : nth l i = some y) (h : nth (setN l i x) j = some z) :
    (j = i ∧ z = x) ∨ (j ≠ i ∧ nth l j = some z) := by
  by_cases hij : j = i
  · subst hij
    rw [nth_setN_self hy x] at h
    injection h with h
    exact Or.inl ⟨rfl, h.symm⟩
  · right
    rw [nth_setN_ne l i j x (fun hc => hij hc.symm)] at h
    exact ⟨hij, h⟩

/-- Positions of an element after appending a single element. -/
theorem nth_snoc_cases {α : Type} {l : List α} {x z : α} {j : Nat}
    (h : nth (l ++ [x]) j = some z) :
    (j < l.length ∧ nth l j = some z) ∨ (j = l.length ∧ z = x) := by
  by_cases hj : j < l.length
  · left
    exact ⟨hj, by rwa [nth_append_lt [x] hj] at h⟩
  · right
    rcases Nat.lt_or_ge j (l ++ [x]).length with hj2 | hj2
    · have hje : j = l.length := by
        simp only [List.length_append, List.length_cons, List.length_nil] at hj2
        omega
      subst hje
      rw [nth_append_length] at h
      injection h with h
      exact ⟨rfl, h.symm⟩
    · rw [nth_none_of_le hj2] at h
      cases h

theorem bcnt_replicate {α : Type} (p : α → Bool) (n : Nat) (a : α) :
    bcnt p (List.replicate n a) = if p a then n else 0 := by
  induction n with
  | zero => simp [List.replicate, bcnt]
  | succ m ih =>
    simp only [List.replicate, bcnt, ih]
    split <;> omega

theorem finErr_setN_noFin {ws : List WSt} {i : Nat} {y : WSt}
    (h : nth ws i = some y) (hy : isFin y = false) {x : WSt}
    (hx : isFin x = false) (es : List Bool) :
    finErr (setN ws i x) es = finErr ws es := by
  induction ws generalizing i es with
  | nil => simp [nth] at h
  | cons z zs ih =>
    cases es with
    | nil => cases i <;> simp [setN, finErr]
    | cons e es =>
      cases i with
      | zero =>
        simp only [nth] at h
        cases h
        simp [setN, finErr, hy, hx]
      | succ n =>
        have := ih (i := n) (by simpa [nth] using h) es
        simp only [setN, finErr]
        omega

/-! ### Preservation of the invariant -/

theorem inv_stepAdder {s s' : Sys} (h : Inv s)
    (hs : stepAdder s = some s') : Inv s' := by
  unfold stepAdder at hs
  cases hadd : s.adder with
  | none => rw [hadd] at hs; cases hs
  | some g =>
    rw [hadd] at hs
    injection hs with hs
    subst hs
    exact ⟨h.uCallers, h.uState, h.rUniq, h.dProto, h.protoOnce, h.retOnce,
      h.dClosed, h.spawnFacts, h.recvFacts, h.sendFacts, h.cfFacts, h.wLen,
      h.wgcLen, h.closedFin, h.bufAcct, h.errAcct, h.logAcct, h.execNone,
      h.execPend, h.execRun, h.dbufLe, h.dsendLe, h.dcloseAcct, h.pstartAcct,
      h.dsendDone, h.waiterRel, h.closedSend⟩

theorem inv_stepWatcher {s s' : Sys} (h : Inv s)
    (hs : stepWatcher s = some s') : Inv s' := by
  unfold stepWatcher at hs
  split at hs
  case isFalse => cases hs
  case isTrue hg =>
    injection hs with hs
    subst hs
    have hbp : bcnt isProto (s.callers ++ [CPC.atDo]) = bcnt isProto s.callers := by
      simp [bcnt_append, bcnt, isProto]
    have hbr : bcnt isRet (s.callers ++ [CPC.atDo]) = bcnt isRet s.callers := by
      simp [bcnt_append, bcnt, isRet]
    refine ⟨?_, h.uState, ?_, ?_, ?_, ?_, h.dClosed, ?_, ?_, ?_, ?_, h.wLen,
      h.wgcLen, h.closedFin, h.bufAcct, h.errAcct, h.logAcct, h.execNone,
      h.execPend, h.execRun, h.dbufLe, h.dsendLe, h.dcloseAcct, h.pstartAcct,
      h.dsendDone, h.waiterRel, h.closedSend⟩
    · intro hu
      have := h.uCallers hu
      exact ⟨by rw [hbp]; exact this.1, by rw [hbr]; exact this.2⟩
    · intro hr
      have := h.rUniq hr
      exact ⟨by rw [hbp]; exact this.1, by rw [hbr]; exact this.2⟩
    · intro hd
      rw [hbp]; exact h.dProto hd
    · intro j pc hj hpc
      rcases nth_snoc_cases hj with ⟨_, hold⟩ | ⟨_, hz⟩
      · exact h.protoOnce j pc hold hpc
      · subst hz; simp [isProto] at hpc
    · intro j hj
      rcases nth_snoc_cases hj with ⟨_, hold⟩ | ⟨_, hz⟩
      · exact h.retOnce j hold
      · cases hz
    · intro j k hj
      rcases nth_snoc_cases hj with ⟨_, hold⟩ | ⟨_, hz⟩
      · exact h.spawnFacts j k hold
      · cases hz
    · intro j hj
      rcases nth_snoc_cases hj with ⟨_, hold⟩ | ⟨_, hz⟩
      · exact h.recvFacts j hold
      · cases hz
    · intro j hj
      rcases nth_snoc_cases hj with ⟨_, hold⟩ | ⟨_, hz⟩
      · exact h.sendFacts j hold
      · cases hz
    · intro j hj
      rcases nth_snoc_cases hj with ⟨_, hold⟩ | ⟨_, hz⟩
      · exact h.cfFacts j hold
      · cases hz

theorem inv_stepWaiter {s s' : Sys} {i : Nat} (h : Inv s)
    (hs : stepWaiter s i = some s') : Inv s' := by
  unfold stepWaiter at hs
  cases hw : nth s.waiters i with
  | none => rw [hw] at hs; cases hs
  | some b =>
    rw [hw] at hs
    cases b with
    | true => cases hs
    | false =>
      replace hs : (if 0 < s.doneBuf then
          some { s with doneBuf := s.doneBuf - 1, waiters := setN s.waiters i true }
        else if s.doneClosed = true then
          some { s with waiters := setN s.waiters i true }
        else none) = some s' := hs
      split at hs
      next hdb =>
        injection hs with hs
        subst hs
        have h1 : cnt .dSend s.trace = 1 := h.doneSet (Or.inl hdb)
        refine ⟨h.uCallers, ?_, h.rUniq, h.dProto, h.protoOnce, h.retOnce,
          h.dClosed, h.spawnFacts, h.recvFacts, h.sendFacts, h.cfFacts, h.wLen,
          h.wgcLen, h.closedFin, h.bufAcct, h.errAcct, h.logAcct, h.execNone,
          h.execPend, h.execRun, ?_, h.dsendLe, h.dcloseAcct, h.pstartAcct,
          h.dsendDone, ?_, h.closedSend⟩
        · intro hu
          have := (h.uState hu).2.2.2.2.2.1
          omega
        · show s.doneBuf - 1 ≤ cnt .dSend s.trace
          have := h.dbufLe
          omega
        · intro j _
          exact h1
      next hdb =>
        split at hs
        next hdc =>
          injection hs with hs
          subst hs
          have h1 : cnt .dSend s.trace = 1 := h.closedSend hdc
          refine ⟨h.uCallers, ?_, h.rUniq, h.dProto, h.protoOnce, h.retOnce,
            h.dClosed, h.spawnFacts, h.recvFacts, h.sendFacts, h.cfFacts, h.wLen,
            h.wgcLen, h.closedFin, h.bufAcct, h.errAcct, h.logAcct, h.execNone,
            h.execPend, h.execRun, h.dbufLe, h.dsendLe, h.dcloseAcct,
            h.pstartAcct, h.dsendDone, ?_, h.closedSend⟩
          · intro hu
            have := (h.uState hu).2.2.2.2.2.2.1
            rw [this] at hdc
            cases hdc
          · intro j _
            exact h1
        next => cases hs

theorem inv_stepCaller {s s' : Sys} {i : Nat} (h : Inv s)
    (hs : stepCaller s i = some s') : Inv s' := by
  unfold stepCaller at hs
  cases hpc : nth s.callers i with
  | none => rw [hpc] at hs; cases hs
  | some pc =>
    rw [hpc] at hs
    cases pc with
    | returned => cases hs
    | atDo =>
      cases honce : s.once with
      | r =>
        rw [honce] at hs
        replace hs : ((none : Option Sys) = some s') := hs
        cases hs
      | u =>
        rw [honce] at hs
        replace hs : (some
            { s with
              once := OnceSt.r,
              loc := s.funcs,
              funcs := [],
              errsBuf := [],
              errsClosed := false,
              callers := setN s.callers i (CPC.spawn 0),
              trace := Ev.protoStart :: s.trace } = some s') := hs
        injection hs with hs
        subst hs
        obtain ⟨hloc, hwk, hwgc, hbuf, hecl, hdb, hdc, htr⟩ := h.uState honce
        obtain ⟨hp0, hr0⟩ := h.uCallers honce
        refine ⟨?_, ?_, ?_, ?_, ?_, ?_, ?_, ?_, ?_, ?_, ?_, ?_, ?_, ?_, ?_,
          ?_, ?_, ?_, ?_, ?_, ?_, ?_, ?_, ?_, ?_, ?_, ?_⟩
        · intro hu; simp at hu
        · intro hu; simp at hu
        · intro _
          have h1 := bcnt_setN hpc isProto (CPC.spawn 0)
          have h2 := bcnt_setN hpc isRet (CPC.spawn 0)
          simp [isProto, isRet] at h1 h2
          constructor
          · show bcnt isProto (setN s.callers i (CPC.spawn 0)) = 1
            omega
          · show bcnt isRet (setN s.callers i (CPC.spawn 0)) = 0
            omega
        · intro hd; simp at hd
        · intro j pc hj hpi; rfl
        · intro j hj
          rcases nth_setN_cases hpc hj with ⟨_, hz⟩ | ⟨hji, hold⟩
          · cases hz
          · have := h.retOnce j hold
            rw [honce] at this
            cases this
        · constructor
          · intro hx; simp at hx
          · intro hx
            have hx' : s.doneClosed = true := hx
            rw [hdc] at hx'
            cases hx'
        · intro j k hj
          rcases nth_setN_cases hpc hj with ⟨hji, hz⟩ | ⟨hji, hold⟩
          · injection hz with hz
            subst hz
            refine ⟨?_, Nat.zero_le _, hwgc, rfl, ?_⟩
            · show s.workers.length = 0
              rw [hwk]; rfl
            · show cnt .dSend (Ev.protoStart :: s.trace) = 0
              rw [htr]; simp
          · have := bcnt_pos hold isProto (by simp [isProto])
            omega
        · intro j hj
          rcases nth_setN_cases hpc hj with ⟨_, hz⟩ | ⟨hji, hold⟩
          · cases hz
          · have := bcnt_pos hold isProto (by simp [isProto])
            omega
        · intro j hj
          rcases nth_setN_cases hpc hj with ⟨_, hz⟩ | ⟨hji, hold⟩
          · cases hz
          · have := bcnt_pos hold isProto (by simp [isProto])
            omega
        · intro j hj
          rcases nth_setN_cases hpc hj with ⟨_, hz⟩ | ⟨hji, hold⟩
          · cases hz
          · have := bcnt_pos hold isProto (by simp [isProto])
            omega
        · show s.workers.length ≤ s.funcs.length
          rw [hwk]; exact Nat.zero_le _
        · intro hg
          have hg' : s.wgc = true := hg
          rw [hwgc] at hg'
          cases hg'
        · intro hcl; simp at hcl
        · show ([] : List Bool).length + outCount (Ev.protoStart :: s.trace)
            = bcnt isFin s.workers
          rw [hwk, htr]; simp [bcnt, isOut]
        · show bcnt (fun b => b) ([] : List Bool)
              + errOutCount (Ev.protoStart :: s.trace) = finErr s.workers s.funcs
          rw [hwk, htr]; simp [bcnt, finErr, isErrOut]
        · show cnt .logged (Ev.protoStart :: s.trace)
            = errOutCount (Ev.protoStart :: s.trace)
          rw [htr]; simp [isErrOut]
        · intro j hj
          show cnt (.exec j) (Ev.protoStart :: s.trace) = 0
          rw [htr]; simp
        · intro j hj
          have hj' : nth s.workers j = some WSt.pending := hj
          rw [hwk] at hj'
          cases hj'
        · intro j w' hj hne
          have hj' : nth s.workers j = some w' := hj
          rw [hwk] at hj'
          cases hj'
        · show s.doneBuf ≤ cnt .dSend (Ev.protoStart :: s.trace)
          rw [hdb]; exact Nat.zero_le _
        · show cnt .dSend (Ev.protoStart :: s.trace) ≤ 1
          rw [htr]; simp
        · show cnt .dClose (Ev.protoStart :: s.trace)
            = (if s.doneClosed = true then 1 else 0)
          rw [htr, hdc]; simp
        · show cnt .protoStart (Ev.protoStart :: s.trace)
            = (if OnceSt.r = OnceSt.u then 0 else 1)
          rw [htr]; simp
        · intro h1
          have h1' : cnt .dSend (Ev.protoStart :: s.trace) = 1 := h1
          rw [htr] at h1'
          simp at h1'
        · intro j hj
          have := h.waiterRel j hj
          rw [htr] at this
          simp at this
        · intro hdc2
          have hdc2' : s.doneClosed = true := hdc2
          rw [hdc] at hdc2'
          cases hdc2'
      | d =>
        rw [honce] at hs
        replace hs : (some
            { s with
              once := OnceSt.d,
              callers := setN s.callers i CPC.returned } = some s') := hs
        injection hs with hs
        subst hs
        refine ⟨?_, ?_, ?_, ?_, ?_, ?_, ?_, ?_, ?_, ?_, ?_, h.wLen,
          h.wgcLen, h.closedFin, h.bufAcct, h.errAcct, h.logAcct, h.execNone,
          h.execPend, h.execRun, h.dbufLe, h.dsendLe, h.dcloseAcct,
          ?_, h.dsendDone, h.waiterRel, h.closedSend⟩
        · intro hu; simp at hu
        · intro hu; simp at hu
        · intro hx; simp at hx
        · intro _
          have h1 := bcnt_setN hpc isProto CPC.returned
          simp [isProto] at h1
          have h2 := h.dProto honce
          show bcnt isProto (setN s.callers i CPC.returned) = 0
          omega
        · intro j pc hj hpi
          rcases nth_setN_cases hpc hj with ⟨_, hz⟩ | ⟨hji, hold⟩
          · rw [hz] at hpi; simp [isProto] at hpi
          · have := h.protoOnce j pc hold hpi
            rw [honce] at this
            cases this
        · intro j hj
          rfl
        · constructor
          · intro _
            exact h.dClosed.mp honce
          · intro _
            rfl
        · intro j k hj
          rcases nth_setN_cases hpc hj with ⟨_, hz⟩ | ⟨hji, hold⟩
          · cases hz
          · exact h.spawnFacts j k hold
        · intro j hj
          rcases nth_setN_cases hpc hj with ⟨_, hz⟩ | ⟨hji, hold⟩
          · cases hz
          · exact h.recvFacts j hold
        · intro j hj
          rcases nth_setN_cases hpc hj with ⟨_, hz⟩ | ⟨hji, hold⟩
          · cases hz
          · exact h.sendFacts j hold
        · intro j hj
          rcases nth_setN_cases hpc hj with ⟨_, hz⟩ | ⟨hji, hold⟩
          · cases hz
          · exact h.cfFacts j hold
        · have hps := h.pstartAcct
          rw [honce] at hps
          simp at hps
          show cnt .protoStart s.trace = (if OnceSt.d = OnceSt.u then 0 else 1)
          simp [hps]
    | spawn k =>
      have hr : s.once = .r := h.protoOnce i _ hpc (by simp [isProto])
      obtain ⟨hw1, hw2, hw3, hw4, hw5⟩ := h.spawnFacts i k hpc
      have hdcF : s.doneClosed = false := by
        cases hdc : s.doneClosed
        · rfl
        · have := h.closedSend hdc
          omega
      replace hs : ((if k < s.loc.length then
          some
            { s with
              workers := s.workers ++ [WSt.pending],
              callers := setN s.callers i (CPC.spawn (k + 1)) }
        else
          some
            { s with
              wgc := true,
              callers := setN s.callers i CPC.recvLoop }) = some s') := hs
      split at hs
      case isTrue hk =>
        injection hs with hs
        subst hs
        refine ⟨?_, ?_, ?_, ?_, ?_, ?_, h.dClosed, ?_, ?_, ?_, ?_, ?_, ?_,
          ?_, ?_, ?_, h.logAcct, ?_, ?_, ?_, h.dbufLe, h.dsendLe,
          h.dcloseAcct, ?_, ?_, ?_, h.closedSend⟩
        · intro hu
          have hu' : s.once = .u := hu
          rw [hu'] at hr
          cases hr
        · intro hu
          have hu' : s.once = .u := hu
          rw [hu'] at hr
          cases hr
        · intro _
          have h1 := bcnt_setN hpc isProto (CPC.spawn (k + 1))
          have h2 := bcnt_setN hpc isRet (CPC.spawn (k + 1))
          simp [isProto, isRet] at h1 h2
          obtain ⟨hrp, hrr⟩ := h.rUniq hr
          constructor
          · show bcnt isProto (setN s.callers i (CPC.spawn (k + 1))) = 1
            omega
          · show bcnt isRet (setN s.callers i (CPC.spawn (k + 1))) = 0
            omega
        · intro hd
          have hd' : s.once = .d := hd
          rw [hd'] at hr
          cases hr
        · intro j pc hj hpi
          exact hr
        · intro j hj
          rcases nth_setN_cases hpc hj with ⟨_, hz⟩ | ⟨hji, hold⟩
          · cases hz
          · have := h.retOnce j hold
            rw [this] at hr
            cases hr
        · intro j k' hj
          rcases nth_setN_cases hpc hj with ⟨hji, hz⟩ | ⟨hji, hold⟩
          · injection hz with hz
            subst hz hji
            refine ⟨?_, ?_, hw3, hw4, hw5⟩
            · show (s.workers ++ [WSt.pending]).length = k + 1
              simp [hw1]
            · show k + 1 ≤ s.loc.length
              omega
          · exact absurd
              (h.protoUniq hold (by simp [isProto]) hpc (by simp [isProto])) hji
        · intro j hj
          rcases nth_setN_cases hpc hj with ⟨_, hz⟩ | ⟨hji, hold⟩
          · cases hz
          · exact absurd
              (h.protoUniq hold (by simp [isProto]) hpc (by simp [isProto])) hji
        · intro j hj
          rcases nth_setN_cases hpc hj with ⟨_, hz⟩ | ⟨hji, hold⟩
          · cases hz
          · exact absurd
              (h.protoUniq hold (by simp [isProto]) hpc (by simp [isProto])) hji
        · intro j hj
          rcases nth_setN_cases hpc hj with ⟨_, hz⟩ | ⟨hji, hold⟩
          · cases hz
          · exact absurd
              (h.protoUniq hold (by simp [isProto]) hpc (by simp [isProto])) hji
        · show (s.workers ++ [WSt.pending]).length ≤ s.loc.length
          simp [hw1]
          omega
        · intro hg
          have hg' : s.wgc = true := hg
          rw [hw3] at hg'
          cases hg'
        · intro hcl
          have hcl' : s.errsClosed = true := hcl
          rw [hw4] at hcl'
          cases hcl'
        · show s.errsBuf.length + outCount s.trace
            = bcnt isFin (s.workers ++ [WSt.pending])
          have := h.bufAcct
          rw [bcnt_append]
          simp [bcnt, isFin]
          omega
        · show bcnt (fun b => b) s.errsBuf + errOutCount s.trace
            = finErr (s.workers ++ [WSt.pending]) s.loc
          rw [finErr_append_pending]
          exact h.errAcct
        · intro j hj
          have hj' : (s.workers ++ [WSt.pending]).length ≤ j := hj
          simp at hj'
          exact h.execNone j (by omega)
        · intro j hj
          rcases nth_snoc_cases hj with ⟨_, hold⟩ | ⟨hje, _⟩
          · exact h.execPend j hold
          · exact h.execNone j (Nat.le_of_eq hje.symm)
        · intro j w' hj hne
          rcases nth_snoc_cases hj with ⟨_, hold⟩ | ⟨hje, hz⟩
          · exact h.execRun j w' hold hne
          · exact absurd hz hne
        · show cnt .protoStart s.trace = (if s.once = .u then 0 else 1)
          exact h.pstartAcct
        · intro h1
          have h1' : cnt .dSend s.trace = 1 := h1
          omega
        · intro j hj
          exact h.waiterRel j hj
      case isFalse hk =>
        injection hs with hs
        subst hs
        have hkeq : k = s.loc.length := by omega
        refine ⟨?_, ?_, ?_, ?_, ?_, ?_, h.dClosed, ?_, ?_, ?_, ?_, h.wLen,
          ?_, ?_, h.bufAcct, h.errAcct, h.logAcct, h.execNone, h.execPend,
          h.execRun, h.dbufLe, h.dsendLe, h.dcloseAcct, ?_, ?_, ?_,
          h.closedSend⟩
        · intro hu
          have hu' : s.once = .u := hu
          rw [hu'] at hr
          cases hr
        · intro hu
          have hu' : s.once = .u := hu
          rw [hu'] at hr
          cases hr
        · intro _
          have h1 := bcnt_setN hpc isProto CPC.recvLoop
          have h2 := bcnt_setN hpc isRet CPC.recvLoop
          simp [isProto, isRet] at h1 h2
          obtain ⟨hrp, hrr⟩ := h.rUniq hr
          constructor
          · show bcnt isProto (setN s.callers i CPC.recvLoop) = 1
            omega
          · show bcnt isRet (setN s.callers i CPC.recvLoop) = 0
            omega
        · intro hd
          have hd' : s.once = .d := hd
          rw [hd'] at hr
          cases hr
        · intro j pc hj hpi
          exact hr
        · intro j hj
          rcases nth_setN_cases hpc hj with ⟨_, hz⟩ | ⟨hji, hold⟩
          · cases hz
          · have := h.retOnce j hold
            rw [this] at hr
            cases hr
        · intro j k' hj
          rcases nth_setN_cases hpc hj with ⟨_, hz⟩ | ⟨hji, hold⟩
          · cases hz
          · exact absurd
              (h.protoUniq hold (by simp [isProto]) hpc (by simp [isProto])) hji
        · intro j hj
          rcases nth_setN_cases hpc hj with ⟨hji, _⟩ | ⟨hji, hold⟩
          · exact ⟨rfl, hw5⟩
          · exact absurd
              (h.protoUniq hold (by simp [isProto]) hpc (by simp [isProto])) hji
        · intro j hj
          rcases nth_setN_cases hpc hj with ⟨_, hz⟩ | ⟨hji, hold⟩
          · cases hz
          · exact absurd
              (h.protoUniq hold (by simp [isProto]) hpc (by simp [isProto])) hji
        · intro j hj
          rcases nth_setN_cases hpc hj with ⟨_, hz⟩ | ⟨hji, hold⟩
          · cases hz
          · exact absurd
              (h.protoUniq hold (by simp [isProto]) hpc (by simp [isProto])) hji
        · intro _
          show s.workers.length = s.loc.length
          omega
        · intro hcl
          have hcl' : s.errsClosed = true := hcl
          rw [hw4] at hcl'
          cases hcl'
        · show cnt .protoStart s.trace = (if s.once = .u then 0 else 1)
          exact h.pstartAcct
        · intro h1
          have h1' : cnt .dSend s.trace = 1 := h1
          omega
        · intro j hj
          exact h.waiterRel j hj
    | recvLoop =>
      have hr : s.once = .r := h.protoOnce i _ hpc (by simp [isProto])
      obtain ⟨hwgc, hnsend⟩ := h.recvFacts i hpc
      have hdcF : s.doneClosed = false := by
        cases hdc : s.doneClosed
        · rfl
        · have := h.closedSend hdc
          omega
      cases hbuf : s.errsBuf with
      | cons e rest =>
        rw [hbuf] at hs
        replace hs : (some
            { s with
              errsBuf := rest,
              trace := (if e = true then [Ev.logged] else [])
                ++ Ev.outcome e :: s.trace } = some s') := hs
        injection hs with hs
        subst hs
        have hbl := h.bufAcct
        have hel := h.errAcct
        rw [hbuf] at hbl hel
        refine ⟨?_, ?_, h.rUniq, ?_, ?_, ?_, h.dClosed, ?_, ?_, ?_, ?_,
          h.wLen, h.wgcLen, h.closedFin, ?_, ?_, ?_, ?_, ?_, ?_, ?_, ?_, ?_,
          ?_, ?_, ?_, ?_⟩
        · intro hu
          have hu' : s.once = .u := hu
          rw [hu'] at hr
          cases hr
        · intro hu
          have hu' : s.once = .u := hu
          rw [hu'] at hr
          cases hr
        · intro hd
          have hd' : s.once = .d := hd
          rw [hd'] at hr
          cases hr
        · intro j pc hj hpi
          exact hr
        · intro j hj
          have := h.retOnce j hj
          rw [this] at hr
          cases hr
        · intro j k hj
          by_cases hji : j = i
          · subst hji
            rw [hpc] at hj
            simp at hj
          · exact absurd
              (h.protoUniq hj (by simp [isProto]) hpc (by simp [isProto])) hji
        · intro j hj
          refine ⟨hwgc, ?_⟩
          show cnt .dSend ((if e = true then [Ev.logged] else [])
              ++ Ev.outcome e :: s.trace) = 0
          cases e <;> simp [hnsend]
        · intro j hj
          by_cases hji : j = i
          · subst hji
            rw [hpc] at hj
            simp at hj
          · exact absurd
              (h.protoUniq hj (by simp [isProto]) hpc (by simp [isProto])) hji
        · intro j hj
          by_cases hji : j = i
          · subst hji
            rw [hpc] at hj
            simp at hj
          · exact absurd
              (h.protoUniq hj (by simp [isProto]) hpc (by simp [isProto])) hji
        · show rest.length + outCount ((if e = true then [Ev.logged] else [])
              ++ Ev.outcome e :: s.trace) = bcnt isFin s.workers
          simp at hbl
          cases e <;> simp [isOut] <;> omega
        · show bcnt (fun b => b) rest
              + errOutCount ((if e = true then [Ev.logged] else [])
                ++ Ev.outcome e :: s.trace) = finErr s.workers s.loc
          cases e <;> simp [bcnt, isErrOut] at hel ⊢ <;> omega
        · show cnt .logged ((if e = true then [Ev.logged] else [])
              ++ Ev.outcome e :: s.trace)
            = errOutCount ((if e = true then [Ev.logged] else [])
              ++ Ev.outcome e :: s.trace)
          have := h.logAcct
          cases e <;> simp [isErrOut] <;> omega
        · intro j hj
          show cnt (.exec j) ((if e = true then [Ev.logged] else [])
              ++ Ev.outcome e :: s.trace) = 0
          have := h.execNone j hj
          cases e <;> simp <;> omega
        · intro j hj
          show cnt (.exec j) ((if e = true then [Ev.logged] else [])
              ++ Ev.outcome e :: s.trace) = 0
          have := h.execPend j hj
          cases e <;> simp <;> omega
        · intro j w' hj hne
          show cnt (.exec j) ((if e = true then [Ev.logged] else [])
              ++ Ev.outcome e :: s.trace) = 1
          have := h.execRun j w' hj hne
          cases e <;> simp <;> omega
        · show s.doneBuf ≤ cnt .dSend ((if e = true then [Ev.logged] else [])
              ++ Ev.outcome e :: s.trace)
          have := h.dbufLe
          cases e <;> simp <;> omega
        · show cnt .dSend ((if e = true then [Ev.logged] else [])
              ++ Ev.outcome e :: s.trace) ≤ 1
          have := h.dsendLe
          cases e <;> simp <;> omega
        · show cnt .dClose ((if e = true then [Ev.logged] else [])
              ++ Ev.outcome e :: s.trace) = (if s.doneClosed = true then 1 else 0)
          have := h.dcloseAcct
          cases e <;> simp <;> omega
        · show cnt .protoStart ((if e = true then [Ev.logged] else [])
              ++ Ev.outcome e :: s.trace) = (if s.once = .u then 0 else 1)
          have := h.pstartAcct
          cases e <;> simp <;> omega
        · intro h1
          exfalso
          have h1' : cnt .dSend ((if e = true then [Ev.logged] else [])
              ++ Ev.outcome e :: s.trace) = 1 := h1
          cases e <;> simp [hnsend] at h1'
        · intro j hj
          exact absurd (h.waiterRel j hj) (by omega)
        · intro hdc
          have hdc' : s.doneClosed = true := hdc
          rw [hdcF] at hdc'
          cases hdc'
      | nil =>
        rw [hbuf] at hs
        replace hs : ((if s.errsClosed = true then
            some
              { s with
                errsBuf := [],
                callers := setN s.callers i CPC.sendDone }
          else none) = some s') := hs
        split at hs
        case isFalse => cases hs
        case isTrue hcl =>
        injection hs with hs
        subst hs
        have hbl := h.bufAcct
        have hel := h.errAcct
        rw [hbuf] at hbl hel
        refine ⟨?_, ?_, ?_, ?_, ?_, ?_, h.dClosed, ?_, ?_, ?_, ?_, h.wLen,
          h.wgcLen, ?_, hbl, hel, h.logAcct, h.execNone, h.execPend,
          h.execRun, h.dbufLe, h.dsendLe, h.dcloseAcct, ?_, ?_, h.waiterRel,
          h.closedSend⟩
        · intro hu
          have hu' : s.once = .u := hu
          rw [hu'] at hr
          cases hr
        · intro hu
          have hu' : s.once = .u := hu
          rw [hu'] at hr
          cases hr
        · intro _
          have h1 := bcnt_setN hpc isProto CPC.sendDone
          have h2 := bcnt_setN hpc isRet CPC.sendDone
          simp [isProto, isRet] at h1 h2
          obtain ⟨hrp, hrr⟩ := h.rUniq hr
          constructor
          · show bcnt isProto (setN s.callers i CPC.sendDone) = 1
            omega
          · show bcnt isRet (setN s.callers i CPC.sendDone) = 0
            omega
        · intro hd
          have hd' : s.once = .d := hd
          rw [hd'] at hr
          cases hr
        · intro j pc hj hpi
          exact hr
        · intro j hj
          rcases nth_setN_cases hpc hj with ⟨_, hz⟩ | ⟨hji, hold⟩
          · cases hz
          · have := h.retOnce j hold
            rw [this] at hr
            cases hr
        · intro j k hj
          rcases nth_setN_cases hpc hj with ⟨_, hz⟩ | ⟨hji, hold⟩
          · cases hz
          · exact absurd
              (h.protoUniq hold (by simp [isProto]) hpc (by simp [isProto])) hji
        · intro j hj
          rcases nth_setN_cases hpc hj with ⟨_, hz⟩ | ⟨hji, hold⟩
          · cases hz
          · exact absurd
              (h.protoUniq hold (by simp [isProto]) hpc (by simp [isProto])) hji
        · intro j hj
          rcases nth_setN_cases hpc hj with ⟨hji, _⟩ | ⟨hji, hold⟩
          · exact ⟨hcl, rfl, hnsend⟩
          · exact absurd
              (h.protoUniq hold (by simp [isProto]) hpc (by simp [isProto])) hji
        · intro j hj
          rcases nth_setN_cases hpc hj with ⟨_, hz⟩ | ⟨hji, hold⟩
          · cases hz
          · exact absurd
              (h.protoUniq hold (by simp [isProto]) hpc (by simp [isProto])) hji
        · intro hcl2
          exact h.closedFin hcl2
        · show cnt .protoStart s.trace = (if s.once = .u then 0 else 1)
          exact h.pstartAcct
        · intro h1
          have h1' : cnt .dSend s.trace = 1 := h1
          omega
    | sendDone =>
      have hr : s.once = .r := h.protoOnce i _ hpc (by simp [isProto])
      obtain ⟨hclE, hbufE, hnsend⟩ := h.sendFacts i hpc
      replace hs : ((if s.doneBuf = 0 ∧ s.doneClosed = false then
          some
            { s with
              doneBuf := 1,
              callers := setN s.callers i CPC.closeFin,
              trace := Ev.dSend :: s.trace }
        else none) = some s') := hs
      split at hs
      case isFalse => cases hs
      case isTrue hg =>
      obtain ⟨hdb0, hdcF⟩ := hg
      injection hs with hs
      subst hs
      have h1' : cnt .dSend (Ev.dSend :: s.trace) = 1 := by simp [hnsend]
      have hwgc2 := (h.closedFin hclE).1
      have hallf := (h.closedFin hclE).2
      have hwlen := h.wgcLen hwgc2
      have hbfin : bcnt isFin s.workers = s.workers.length :=
        bcnt_eq_length (fun j w hw => by rw [hallf j w hw]; simp [isFin])
      have hout : outCount s.trace = s.loc.length := by
        have := h.bufAcct
        rw [hbufE] at this
        simp at this
        omega
      refine ⟨?_, ?_, ?_, ?_, ?_, ?_, ?_, ?_, ?_, ?_, ?_, h.wLen, h.wgcLen,
        h.closedFin, ?_, ?_, ?_, ?_, ?_, ?_, ?_, ?_, ?_, ?_, ?_, ?_, ?_⟩
      · intro hu
        have hu' : s.once = .u := hu
        rw [hu'] at hr
        cases hr
      · intro hu
        have hu' : s.once = .u := hu
        rw [hu'] at hr
        cases hr
      · intro _
        have h1 := bcnt_setN hpc isProto CPC.closeFin
        have h2 := bcnt_setN hpc isRet CPC.closeFin
        simp [isProto, isRet] at h1 h2
        obtain ⟨hrp, hrr⟩ := h.rUniq hr
        constructor
        · show bcnt isProto (setN s.callers i CPC.closeFin) = 1
          omega
        · show bcnt isRet (setN s.callers i CPC.closeFin) = 0
          omega
      · intro hd
        have hd' : s.once = .d := hd
        rw [hd'] at hr
        cases hr
      · intro j pc hj hpi
        exact hr
      · intro j hj
        rcases nth_setN_cases hpc hj with ⟨_, hz⟩ | ⟨hji, hold⟩
        · cases hz
        · have := h.retOnce j hold
          rw [this] at hr
          cases hr
      · constructor
        · intro hx
          have hx' : s.once = .d := hx
          rw [hx'] at hr
          cases hr
        · intro hx
          have hx' : s.doneClosed = true := hx
          rw [hdcF] at hx'
          cases hx'
      · intro j k hj
        rcases nth_setN_cases hpc hj with ⟨_, hz⟩ | ⟨hji, hold⟩
        · cases hz
        · exact absurd
            (h.protoUniq hold (by simp [isProto]) hpc (by simp [isProto])) hji
      · intro j hj
        rcases nth_setN_cases hpc hj with ⟨_, hz⟩ | ⟨hji, hold⟩
        · cases hz
        · exact absurd
            (h.protoUniq hold (by simp [isProto]) hpc (by simp [isProto])) hji
      · intro j hj
        rcases nth_setN_cases hpc hj with ⟨_, hz⟩ | ⟨hji, hold⟩
        · cases hz
        · exact absurd
            (h.protoUniq hold (by simp [isProto]) hpc (by simp [isProto])) hji
      · intro j hj
        rcases nth_setN_cases hpc hj with ⟨hji, _⟩ | ⟨hji, hold⟩
        · exact ⟨h1', hdcF⟩
        · exact absurd
            (h.protoUniq hold (by simp [isProto]) hpc (by simp [isProto])) hji
      · show s.errsBuf.length + outCount (Ev.dSend :: s.trace)
          = bcnt isFin s.workers
        have := h.bufAcct
        simp [isOut]
        omega
      · show bcnt (fun b => b) s.errsBuf + errOutCount (Ev.dSend :: s.trace)
          = finErr s.workers s.loc
        have := h.errAcct
        simp [isErrOut]
        omega
      · show cnt .logged (Ev.dSend :: s.trace)
          = errOutCount (Ev.dSend :: s.trace)
        have := h.logAcct
        simp [isErrOut]
        omega
      · intro j hj
        show cnt (.exec j) (Ev.dSend :: s.trace) = 0
        simp [h.execNone j hj]
      · intro j hj
        show cnt (.exec j) (Ev.dSend :: s.trace) = 0
        simp [h.execPend j hj]
      · intro j w' hj hne
        show cnt (.exec j) (Ev.dSend :: s.trace) = 1
        simp [h.execRun j w' hj hne]
      · show (1 : Nat) ≤ cnt .dSend (Ev.dSend :: s.trace)
        omega
      · show cnt .dSend (Ev.dSend :: s.trace) ≤ 1
        omega
      · show cnt .dClose (Ev.dSend :: s.trace)
          = (if s.doneClosed = true then 1 else 0)
        have := h.dcloseAcct
        simp
        omega
      · show cnt .protoStart (Ev.dSend :: s.trace)
          = (if s.once = .u then 0 else 1)
        have := h.pstartAcct
        simp
        omega
      · intro _
        refine ⟨hclE, hbufE, ?_, hwlen⟩
        show outCount (Ev.dSend :: s.trace) = s.loc.length
        simp [isOut, hout]
      · intro j hj
        exact h1'
      · intro hdc
        have hdc' : s.doneClosed = true := hdc
        rw [hdcF] at hdc'
        cases hdc'
    | closeFin =>
      have hr : s.once = .r := h.protoOnce i _ hpc (by simp [isProto])
      obtain ⟨h1, hdcF⟩ := h.cfFacts i hpc
      obtain ⟨hclE, hbufE, houtE, hwlenE⟩ := h.dsendDone h1
      replace hs : (some
          { s with
            doneClosed := true,
            once := OnceSt.d,
            callers := setN s.callers i CPC.returned,
            trace := Ev.dClose :: s.trace } = some s') := hs
      injection hs with hs
      subst hs
      refine ⟨?_, ?_, ?_, ?_, ?_, ?_, ?_, ?_, ?_, ?_, ?_, h.wLen, h.wgcLen,
        h.closedFin, ?_, ?_, ?_, ?_, ?_, ?_, ?_, ?_, ?_, ?_, ?_, ?_, ?_⟩
      · intro hu; simp at hu
      · intro hu; simp at hu
      · intro hx; simp at hx
      · intro _
        have hbp := bcnt_setN hpc isProto CPC.returned
        simp [isProto] at hbp
        obtain ⟨hrp, _⟩ := h.rUniq hr
        show bcnt isProto (setN s.callers i CPC.returned) = 0
        omega
      · intro j pc hj hpi
        rcases nth_setN_cases hpc hj with ⟨_, hz⟩ | ⟨hji, hold⟩
        · rw [hz] at hpi; simp [isProto] at hpi
        · exact absurd
            (h.protoUniq hold hpi hpc (by simp [isProto])) hji
      · intro j hj
        rfl
      · exact ⟨fun _ => rfl, fun _ => rfl⟩
      · intro j k hj
        rcases nth_setN_cases hpc hj with ⟨_, hz⟩ | ⟨hji, hold⟩
        · cases hz
        · exact absurd
            (h.protoUniq hold (by simp [isProto]) hpc (by simp [isProto])) hji
      · intro j hj
        rcases nth_setN_cases hpc hj with ⟨_, hz⟩ | ⟨hji, hold⟩
        · cases hz
        · exact absurd
            (h.protoUniq hold (by simp [isProto]) hpc (by simp [isProto])) hji
      · intro j hj
        rcases nth_setN_cases hpc hj with ⟨_, hz⟩ | ⟨hji, hold⟩
        · cases hz
        · exact absurd
            (h.protoUniq hold (by simp [isProto]) hpc (by simp [isProto])) hji
      · intro j hj
        rcases nth_setN_cases hpc hj with ⟨_, hz⟩ | ⟨hji, hold⟩
        · cases hz
        · exact absurd
            (h.protoUniq hold (by simp [isProto]) hpc (by simp [isProto])) hji
      · show s.errsBuf.length + outCount (Ev.dClose :: s.trace)
          = bcnt isFin s.workers
        have := h.bufAcct
        simp [isOut]
        omega
      · show bcnt (fun b => b) s.errsBuf + errOutCount (Ev.dClose :: s.trace)
          = finErr s.workers s.loc
        have := h.errAcct
        simp [isErrOut]
        omega
      · show cnt .logged (Ev.dClose :: s.trace)
          = errOutCount (Ev.dClose :: s.trace)
        have := h.logAcct
        simp [isErrOut]
        omega
      · intro j hj
        show cnt (.exec j) (Ev.dClose :: s.trace) = 0
        simp [h.execNone j hj]
      · intro j hj
        show cnt (.exec j) (Ev.dClose :: s.trace) = 0
        simp [h.execPend j hj]
      · intro j w' hj hne
        show cnt (.exec j) (Ev.dClose :: s.trace) = 1
        simp [h.execRun j w' hj hne]
      · show s.doneBuf ≤ cnt .dSend (Ev.dClose :: s.trace)
        have := h.dbufLe
        simp
        omega
      · show cnt .dSend (Ev.dClose :: s.trace) ≤ 1
        have := h.dsendLe
        simp
        omega
      · show cnt .dClose (Ev.dClose :: s.trace)
          = (if True then 1 else 0)
        have := h.dcloseAcct
        rw [hdcF] at this
        simp at this
        simp [this]
      · have hps := h.pstartAcct
        rw [hr] at hps
        simp at hps
        show cnt .protoStart (Ev.dClose :: s.trace)
          = (if OnceSt.d = OnceSt.u then 0 else 1)
        simp [hps]
      · intro _
        refine ⟨hclE, hbufE, ?_, hwlenE⟩
        show outCount (Ev.dClose :: s.trace) = s.loc.length
        simp [isOut, houtE]
      · intro j hj
        show cnt .dSend (Ev.dClose :: s.trace) = 1
        simp [h1]
      · intro _
        show cnt .dSend (Ev.dClose :: s.trace) = 1
        simp [h1]

theorem inv_stepWorker {s s' : Sys} {i : Nat} (h : Inv s)
    (hs : stepWorker s i = some s') : Inv s' := by
  unfold stepWorker at hs
  cases hw : nth s.workers i with
  | none => rw [hw] at hs; cases hs
  | some w =>
    rw [hw] at hs
    cases w with
    | fin => cases hs
    | pending =>
      replace hs : (some
          { s with
            workers := setN s.workers i WSt.ran,
            trace := Ev.exec i :: s.trace } = some s') := hs
      injection hs with hs
      subst hs
      have hr : s.once = .r := h.onceR_of_worker hw (by simp [isFin])
      have hnclosed : s.errsClosed = false := by
        cases hcl : s.errsClosed
        · rfl
        · have := (h.closedFin hcl).2 i _ hw
          cases this
      have hnsend : cnt .dSend s.trace = 0 := by
        by_cases h1 : cnt .dSend s.trace = 1
        · have := (h.dsendDone h1).1
          rw [hnclosed] at this
          cases this
        · have := h.dsendLe
          omega
      have hdcF : s.doneClosed = false := by
        cases hdc : s.doneClosed
        · rfl
        · have := h.closedSend hdc
          omega
      have hilt : i < s.workers.length := nth_lt_length hw
      refine ⟨?_, ?_, h.rUniq, ?_, h.protoOnce, h.retOnce, h.dClosed,
        ?_, ?_, ?_, ?_, ?_, ?_, ?_, ?_, ?_, ?_, ?_, ?_, ?_, ?_, ?_, ?_, ?_,
        ?_, ?_, ?_⟩
      · intro hu; rw [hu] at hr; cases hr
      · intro hu; rw [hu] at hr; cases hr
      · intro hd; rw [hd] at hr; cases hr
      · intro j k hj
        obtain ⟨h1, h2, h3, h4, h5⟩ := h.spawnFacts j k hj
        refine ⟨by rw [length_setN]; exact h1, h2, h3, h4, ?_⟩
        show cnt .dSend (.exec i :: s.trace) = 0
        simp [h5]
      · intro j hj
        obtain ⟨h1, h2⟩ := h.recvFacts j hj
        refine ⟨h1, ?_⟩
        show cnt .dSend (.exec i :: s.trace) = 0
        simp [h2]
      · intro j hj
        have := (h.sendFacts j hj).1
        rw [hnclosed] at this
        cases this
      · intro j hj
        have := (h.dsendDone (h.cfFacts j hj).1).1
        rw [hnclosed] at this
        cases this
      · show (setN s.workers i WSt.ran).length ≤ s.loc.length
        rw [length_setN]; exact h.wLen
      · intro hg
        show (setN s.workers i WSt.ran).length = s.loc.length
        rw [length_setN]; exact h.wgcLen hg
      · intro hcl
        rw [hnclosed] at hcl
        cases hcl
      · show s.errsBuf.length + outCount (.exec i :: s.trace)
          = bcnt isFin (setN s.workers i .ran)
        have hb := bcnt_setN hw isFin WSt.ran
        have := h.bufAcct
        simp only [isFin] at hb
        simp only [outCount_cons, isOut]
        simp at hb ⊢
        omega
      · show bcnt (fun b => b) s.errsBuf + errOutCount (.exec i :: s.trace)
          = finErr (setN s.workers i .ran) s.loc
        rw [finErr_setN_noFin hw (by simp [isFin]) (by simp [isFin])]
        have := h.errAcct
        simp only [errOutCount_cons, isErrOut]
        simp
        omega
      · show cnt .logged (.exec i :: s.trace) = errOutCount (.exec i :: s.trace)
        simp [h.logAcct, isErrOut]
      · intro j hj
        rw [show ((setN s.workers i WSt.ran).length : Nat)
          = s.workers.length from length_setN _ _ _] at hj
        have hij : i ≠ j := by omega
        show cnt (.exec j) (.exec i :: s.trace) = 0
        simp [hij, h.execNone j hj]
      · intro j hj
        rcases nth_setN_cases hw hj with ⟨_, hz⟩ | ⟨hij, hold⟩
        · cases hz
        · show cnt (.exec j) (.exec i :: s.trace) = 0
          have hij' : i ≠ j := fun hc => hij hc.symm
          simp [hij', h.execPend j hold]
      · intro j w' hj hne
        rcases nth_setN_cases hw hj with ⟨hij, hz⟩ | ⟨hij, hold⟩
        · subst hij
          show cnt (Ev.exec j) (Ev.exec j :: s.trace) = 1
          simp [h.execPend j hw]
        · show cnt (.exec j) (.exec i :: s.trace) = 1
          have hij' : i ≠ j := fun hc => hij hc.symm
          simp [hij', h.execRun j w' hold hne]
      · show s.doneBuf ≤ cnt .dSend (.exec i :: s.trace)
        have := h.dbufLe
        simp
        omega
      · show cnt .dSend (.exec i :: s.trace) ≤ 1
        have := h.dsendLe
        simp
        omega
      · show cnt .dClose (.exec i :: s.trace) = (if s.doneClosed = true then 1 else 0)
        simp [h.dcloseAcct]
      · show cnt .protoStart (.exec i :: s.trace) = (if s.once = .u then 0 else 1)
        simp [h.pstartAcct]
      · intro h1
        show s.errsClosed = true ∧ _
        rw [show cnt .dSend (.exec i :: s.trace) = cnt .dSend s.trace by simp] at h1
        omega
      · intro j hj
        have := h.waiterRel j hj
        omega
      · intro hdc
        rw [hdcF] at hdc
        cases hdc
    | ran =>
      replace hs : ((if s.errsBuf.length < s.loc.length then
          some
            { s with
              errsBuf := s.errsBuf ++ [(nth s.loc i).getD false],
              workers := setN s.workers i WSt.fin }
          else none) = some s') := hs
      split at hs
      case isFalse => cases hs
      case isTrue hlt =>
      injection hs with hs
      subst hs
      have hr : s.once = .r := h.onceR_of_worker hw (by simp [isFin])
      have hnclosed : s.errsClosed = false := by
        cases hcl : s.errsClosed
        · rfl
        · have := (h.closedFin hcl).2 i _ hw
          cases this
      have hdcF : s.doneClosed = false := by
        cases hdc : s.doneClosed
        · rfl
        · have h1 := h.closedSend hdc
          have := (h.dsendDone h1).1
          rw [hnclosed] at this
          cases this
      have hilt : i < s.workers.length := nth_lt_length hw
      refine ⟨?_, ?_, h.rUniq, ?_, h.protoOnce, h.retOnce, h.dClosed,
        ?_, h.recvFacts, ?_, ?_, ?_, ?_, ?_, ?_, ?_, h.logAcct, ?_, ?_, ?_,
        h.dbufLe, h.dsendLe, h.dcloseAcct, h.pstartAcct, ?_, h.waiterRel,
        h.closedSend⟩
      · intro hu; rw [hu] at hr; cases hr
      · intro hu; rw [hu] at hr; cases hr
      · intro hd; rw [hd] at hr; cases hr
      · intro j k hj
        obtain ⟨h1, h2, h3, h4, h5⟩ := h.spawnFacts j k hj
        exact ⟨by rw [length_setN]; exact h1, h2, h3, h4, h5⟩
      · intro j hj
        have := (h.sendFacts j hj).1
        rw [hnclosed] at this
        cases this
      · intro j hj
        have := (h.dsendDone (h.cfFacts j hj).1).1
        rw [hnclosed] at this
        cases this
      · show (setN s.workers i WSt.fin).length ≤ s.loc.length
        rw [length_setN]; exact h.wLen
      · intro hg
        show (setN s.workers i WSt.fin).length = s.loc.length
        rw [length_setN]; exact h.wgcLen hg
      · intro hcl
        rw [hnclosed] at hcl
        cases hcl
      · show (s.errsBuf ++ [(nth s.loc i).getD false]).length + outCount s.trace
          = bcnt isFin (setN s.workers i .fin)
        have hb := bcnt_setN hw isFin WSt.fin
        have := h.bufAcct
        simp only [isFin] at hb
        simp at hb ⊢
        omega
      · show bcnt (fun b => b) (s.errsBuf ++ [(nth s.loc i).getD false])
            + errOutCount s.trace = finErr (setN s.workers i .fin) s.loc
        have hf := finErr_setN_fin hw (by simp [isFin])
          (Nat.lt_of_lt_of_le hilt h.wLen)
        rw [hf, bcnt_append]
        have := h.errAcct
        simp only [bcnt]
        omega
      · intro j hj
        rw [show ((setN s.workers i WSt.fin).length : Nat)
          = s.workers.length from length_setN _ _ _] at hj
        exact h.execNone j hj
      · intro j hj
        rcases nth_setN_cases hw hj with ⟨_, hz⟩ | ⟨hij, hold⟩
        · cases hz
        · exact h.execPend j hold
      · intro j w' hj hne
        rcases nth_setN_cases hw hj with ⟨hij, hz⟩ | ⟨hij, hold⟩
        · subst hij
          exact h.execRun j .ran hw (by simp)
        · exact h.execRun j w' hold hne
      · intro h1
        have := (h.dsendDone h1).1
        rw [hnclosed] at this
        cases this

theorem inv_stepWgc {s s' : Sys} (h : Inv s)
    (hs : stepWgc s = some s') : Inv s' := by
  unfold stepWgc at hs
  split at hs
  case isFalse => cases hs
  case isTrue hg =>
    obtain ⟨hwgc, hncl, hall⟩ := hg
    injection hs with hs
    subst hs
    have hafin : ∀ j w, nth s.workers j = some w → w = .fin := by
      intro j w hj
      have := (all_eq_forall_nth isFin s.workers).mp hall j w hj
      cases w <;> simp [isFin] at this ⊢
    refine ⟨h.uCallers, ?_, h.rUniq, h.dProto, h.protoOnce, h.retOnce,
      h.dClosed, ?_, h.recvFacts, ?_, ?_, h.wLen, h.wgcLen, ?_, h.bufAcct,
      h.errAcct, h.logAcct, h.execNone, h.execPend, h.execRun, h.dbufLe,
      h.dsendLe, h.dcloseAcct, h.pstartAcct, ?_, h.waiterRel, h.closedSend⟩
    · intro hu
      have := (h.uState hu).2.2.1
      rw [this] at hwgc
      cases hwgc
    · intro j k hj
      have := (h.spawnFacts j k hj).2.2.1
      rw [this] at hwgc
      cases hwgc
    · intro j hj
      have := (h.sendFacts j hj).1
      rw [this] at hncl
      cases hncl
    · intro j hj
      have h1 := (h.cfFacts j hj).1
      have := (h.dsendDone h1).1
      rw [this] at hncl
      cases hncl
    · intro _
      exact ⟨hwgc, hafin⟩
    · intro h1
      have := (h.dsendDone h1).1
      rw [this] at hncl
      cases hncl

theorem inv_stepThread {s s' : Sys} {t : Tid} (h : Inv s)
    (hs : stepThread t s = some s') : Inv s' := by
  cases t with
  | caller i => exact inv_stepCaller h hs
  | worker i => exact inv_stepWorker h hs
  | wgcloser => exact inv_stepWgc h hs
  | waiter i => exact inv_stepWaiter h hs
  | watcher => exact inv_stepWatcher h hs
  | adder => exact inv_stepAdder h hs

theorem inv_runSched {l : List Tid} {s s' : Sys} (h : Inv s)
    (hs : runSched s l = some s') : Inv s' := by
  induction l generalizing s with
  | nil =>
    unfold runSched at hs
    injection hs with hs
    subst hs
    exact h
  | cons t ts ih =>
    unfold runSched at hs
    cases hst : stepThread t s with
    | none => rw [hst] at hs; cases hs
    | some s1 =>
      rw [hst] at hs
      exact ih (inv_stepThread h hst) hs

/-- Every initial state satisfies the invariant. -/
theorem inv_mkSys (fs : List Bool) (nc nw nwatch sp : Nat)
    (adds : Option (List Bool)) : Inv (mkSys fs nc nw nwatch sp adds) := by
  have hcall : ∀ j pc, nth (List.replicate nc CPC.atDo) j = some pc →
      pc = CPC.atDo := by
    intro j pc hj
    rw [nth_replicate] at hj
    split at hj
    · injection hj with hj; exact hj.symm
    · cases hj
  have hwait : ∀ j b, nth (List.replicate nw false) j = some b →
      b = false := by
    intro j b hj
    rw [nth_replicate] at hj
    split at hj
    · injection hj with hj; exact hj.symm
    · cases hj
  simp only [mkSys]
  refine ⟨?_, ?_, ?_, ?_, ?_, ?_, ?_, ?_, ?_, ?_, ?_, ?_, ?_, ?_, ?_, ?_,
    ?_, ?_, ?_, ?_, ?_, ?_, ?_, ?_, ?_, ?_, ?_⟩
  · intro _
    constructor
    · show bcnt isProto (List.replicate nc CPC.atDo) = 0
      rw [bcnt_replicate]
      simp [isProto]
    · show bcnt isRet (List.replicate nc CPC.atDo) = 0
      rw [bcnt_replicate]
      simp [isRet]
  · intro _
    exact ⟨rfl, rfl, rfl, rfl, rfl, rfl, rfl, rfl⟩
  · intro hx; simp at hx
  · intro hx; simp at hx
  · intro j pc hj hpi
    have := hcall j pc hj
    rw [this] at hpi
    simp [isProto] at hpi
  · intro j hj
    have := hcall j _ hj
    cases this
  · constructor
    · intro hx; simp at hx
    · intro hx; simp at hx
  · intro j k hj
    have := hcall j _ hj
    cases this
  · intro j hj
    have := hcall j _ hj
    cases this
  · intro j hj
    have := hcall j _ hj
    cases this
  · intro j hj
    have := hcall j _ hj
    cases this
  · exact Nat.le_refl _
  · intro hx; simp at hx
  · intro hx; simp at hx
  · rfl
  · rfl
  · rfl
  · intro j hj
    rfl
  · intro j hj
    cases hj
  · intro j w' hj hne
    cases hj
  · exact Nat.le_refl _
  · exact Nat.zero_le _
  · rfl
  · rfl
  · intro hx; simp at hx
  · intro j hj
    have := hwait j _ hj
    cases this
  · intro hx; simp at hx

/-- The invariant holds in every reachable state. -/
theorem inv_reach {s s' : Sys} (h : Inv s) (hr : Reach s s') : Inv s' := by
  obtain ⟨l, hl⟩ := hr
  exact inv_runSched h hl

/-! ### Runs without concurrent registration

When no `Add` call races with the trigger, the drained local list is
exactly the initially registered list. -/

def NoAdd (fs : List Bool) (s : Sys) : Prop :=
  s.adder = none ∧ (s.once = .u → s.funcs = fs) ∧
    (s.once ≠ .u → s.loc = fs ∧ s.funcs = [])

theorem noAdd_step {fs : List Bool} {t : Tid} {s s' : Sys} (h : Inv s)
    (hn : NoAdd fs s) (hs : stepThread t s = some s') : NoAdd fs s' := by
  obtain ⟨ha, h2, h3⟩ := hn
  cases t with
  | adder =>
    replace hs : stepAdder s = some s' := hs
    unfold stepAdder at hs
    rw [ha] at hs
    cases hs
  | watcher =>
    replace hs : stepWatcher s = some s' := hs
    unfold stepWatcher at hs
    split at hs
    case isFalse => cases hs
    case isTrue =>
      injection hs with hs
      subst hs
      exact ⟨ha, h2, h3⟩
  | wgcloser =>
    replace hs : stepWgc s = some s' := hs
    unfold stepWgc at hs
    split at hs
    case isFalse => cases hs
    case isTrue =>
      injection hs with hs
      subst hs
      exact ⟨ha, h2, h3⟩
  | waiter i =>
    replace hs : stepWaiter s i = some s' := hs
    unfold stepWaiter at hs
    cases hw : nth s.waiters i with
    | none => rw [hw] at hs; cases hs
    | some b =>
      rw [hw] at hs
      cases b with
      | true => cases hs
      | false =>
        replace hs : ((if 0 < s.doneBuf then
            some { s with doneBuf := s.doneBuf - 1, waiters := setN s.waiters i true }
          else if s.doneClosed = true then
            some { s with waiters := setN s.waiters i true }
          else none) = some s') := hs
        split at hs
        next =>
          injection hs with hs
          subst hs
          exact ⟨ha, h2, h3⟩
        next =>
          split at hs
          next =>
            injection hs with hs
            subst hs
            exact ⟨ha, h2, h3⟩
          next => cases hs
  | worker i =>
    replace hs : stepWorker s i = some s' := hs
    unfold stepWorker at hs
    cases hw : nth s.workers i with
    | none => rw [hw] at hs; cases hs
    | some w =>
      rw [hw] at hs
      cases w with
      | fin => cases hs
      | pending =>
        replace hs : (some
            { s with
              workers := setN s.workers i WSt.ran,
              trace := Ev.exec i :: s.trace } = some s') := hs
        injection hs with hs
        subst hs
        exact ⟨ha, h2, h3⟩
      | ran =>
        replace hs : ((if s.errsBuf.length < s.loc.length then
            some
              { s with
                errsBuf := s.errsBuf ++ [(nth s.loc i).getD false],
                workers := setN s.workers i WSt.fin }
            else none) = some s') := hs
        split at hs
        case isFalse => cases hs
        case isTrue =>
          injection hs with hs
          subst hs
          exact ⟨ha, h2, h3⟩
  | caller i =>
    replace hs : stepCaller s i = some s' := hs
    unfold stepCaller at hs
    cases hpc : nth s.callers i with
    | none => rw [hpc] at hs; cases hs
    | some pc =>
      rw [hpc] at hs
      cases pc with
      | returned => cases hs
      | atDo =>
        cases honce : s.once with
        | r =>
          rw [honce] at hs
          replace hs : ((none : Option Sys) = some s') := hs
          cases hs
        | u =>
          rw [honce] at hs
          replace hs : (some
              { s with
                once := OnceSt.r,
                loc := s.funcs,
                funcs := [],
                errsBuf := [],
                errsClosed := false,
                callers := setN s.callers i (CPC.spawn 0),
                trace := Ev.protoStart :: s.trace } = some s') := hs
          injection hs with hs
          subst hs
          refine ⟨ha, ?_, ?_⟩
          · intro hu; simp at hu
          · intro _
            exact ⟨h2 honce, rfl⟩
        | d =>
          rw [honce] at hs
          replace hs : (some
              { s with
                once := OnceSt.d,
                callers := setN s.callers i CPC.returned } = some s') := hs
          injection hs with hs
          subst hs
          refine ⟨ha, ?_, ?_⟩
          · intro hu; simp at hu
          · intro _
            exact h3 (by rw [honce]; simp)
      | spawn k =>
        replace hs : ((if k < s.loc.length then
            some
              { s with
                workers := s.workers ++ [WSt.pending],
                callers := setN s.callers i (CPC.spawn (k + 1)) }
          else
            some
              { s with
                wgc := true,
                callers := setN s.callers i CPC.recvLoop }) = some s') := hs
        split at hs <;> (injection hs with hs; subst hs; exact ⟨ha, h2, h3⟩)
      | recvLoop =>
        cases hbuf : s.errsBuf with
        | cons e rest =>
          rw [hbuf] at hs
          replace hs : (some
              { s with
                errsBuf := rest,
                trace := (if e = true then [Ev.logged] else [])
                  ++ Ev.outcome e :: s.trace } = some s') := hs
          injection hs with hs
          subst hs
          exact ⟨ha, h2, h3⟩
        | nil =>
          rw [hbuf] at hs
          replace hs : ((if s.errsClosed = true then
              some
                { s with
                  errsBuf := [],
                  callers := setN s.callers i CPC.sendDone }
            else none) = some s') := hs
          split at hs
          case isFalse => cases hs
          case isTrue =>
            injection hs with hs
            subst hs
            have hr : s.once = .r := h.protoOnce i _ hpc (by simp [isProto])
            refine ⟨ha, ?_, ?_⟩
            · intro hu
              have hu' : s.once = .u := hu
              rw [hu'] at hr
              cases hr
            · intro _
              exact h3 (by rw [hr]; simp)
      | sendDone =>
        replace hs : ((if s.doneBuf = 0 ∧ s.doneClosed = false then
            some
              { s with
                doneBuf := 1,
                callers := setN s.callers i CPC.closeFin,
                trace := Ev.dSend :: s.trace }
          else none) = some s') := hs
        split at hs
        case isFalse => cases hs
        case isTrue =>
          injection hs with hs
          subst hs
          exact ⟨ha, h2, h3⟩
      | closeFin =>
        replace hs : (some
            { s with
              doneClosed := true,
              once := OnceSt.d,
              callers := setN s.callers i CPC.returned,
              trace := Ev.dClose :: s.trace } = some s') := hs
        injection hs with hs
        subst hs
        have hr : s.once = .r := h.protoOnce i _ hpc (by simp [isProto])
        refine ⟨ha, ?_, ?_⟩
        · intro hu; simp at hu
        · intro _
          exact h3 (by rw [hr]; simp)

theorem noAdd_runSched {fs : List Bool} {l : List Tid} {s s' : Sys}
    (h : Inv s) (hn : NoAdd fs s) (hs : runSched s l = some s') :
    NoAdd fs s' := by
  induction l generalizing s with
  | nil =>
    unfold runSched at hs
    injection hs with hs
    subst hs
    exact hn
  | cons t ts ih =>
    unfold runSched at hs
    cases hst : stepThread t s with
    | none => rw [hst] at hs; cases hs
    | some s1 =>
      rw [hst] at hs
      exact ih (inv_stepThread h hst) (noAdd_step h hn hst) hs

theorem noAdd_mkSys (fs : List Bool) (nc nw nwatch sp : Nat) :
    NoAdd fs (mkSys fs nc nw nwatch sp none) := by
  refine ⟨rfl, fun _ => rfl, fun hu => ?_⟩
  exact absurd rfl hu

/-! ### Termination measure

`M` bounds the number of remaining scheduling steps of a system with no
watcher and no pending `Add`: every step strictly decreases it. -/

/-- Weight of a `CloseAll` caller, counting its remaining steps (the
protocol's length depends on the number of registered functions before
the drain and on the drained list afterwards). -/
def wCP (funcs loc : List Bool) : CPC → Nat
  | .atDo => 6 + 4 * funcs.length
  | .spawn k => 5 + 4 * (loc.length - k)
  | .recvLoop => 3
  | .sendDone => 2
  | .closeFin => 1
  | .returned => 0

/-- Weight of a worker goroutine. -/
def wWS : WSt → Nat
  | .pending => 3
  | .ran => 2
  | .fin => 0

/-- The termination measure. -/
def M (s : Sys) : Nat :=
  sumBy (wCP s.funcs s.loc) s.callers + sumBy wWS s.workers
    + s.errsBuf.length
    + (if s.wgc = true ∧ s.errsClosed = false then 1 else 0)
    + sumBy (fun w => if w = true then 0 else 1) s.waiters

theorem sumBy_setN_lt {α : Type} {l : List α} {i : Nat} {y x : α}
    {f g : α → Nat} (hy : nth l i = some y)
    (hpt : ∀ j z, nth l j = some z → g z ≤ f z) (hx : g x < f y) :
    sumBy g (setN l i x) < sumBy f l := by
  induction l generalizing i with
  | nil => simp [nth] at hy
  | cons z zs ih =>
    cases i with
    | zero =>
      simp only [nth] at hy
      cases hy
      have hrest : sumBy g zs ≤ sumBy f zs :=
        sumBy_le_sumBy (fun j w hw => hpt (j + 1) w (by simpa [nth] using hw))
      simp only [setN, sumBy]
      omega
    | succ n =>
      have hhd : g z ≤ f z := hpt 0 z rfl
      have := ih (i := n) (by simpa [nth] using hy)
        (fun j w hw => hpt (j + 1) w (by simpa [nth] using hw))
      simp only [setN, sumBy]
      omega

/-- Every step of a system with no watcher and no pending `Add`
strictly decreases the measure. -/
theorem measure_decreases {t : Tid} {s s' : Sys} (h : Inv s)
    (ha : s.adder = none) (hwz : s.watchers = 0)
    (hs : stepThread t s = some s') : M s' < M s := by
  cases t with
  | adder =>
    replace hs : stepAdder s = some s' := hs
    unfold stepAdder at hs
    rw [ha] at hs
    cases hs
  | watcher =>
    replace hs : stepWatcher s = some s' := hs
    unfold stepWatcher at hs
    split at hs
    case isFalse => cases hs
    case isTrue hg =>
      rw [hwz] at hg
      exact absurd hg.1 (by omega)
  | wgcloser =>
    replace hs : stepWgc s = some s' := hs
    unfold stepWgc at hs
    split at hs
    case isFalse => cases hs
    case isTrue hg =>
      obtain ⟨hwgc, hncl, _⟩ := hg
      injection hs with hs
      subst hs
      simp only [M]
      simp [hwgc, hncl]
  | waiter i =>
    replace hs : stepWaiter s i = some s' := hs
    unfold stepWaiter at hs
    cases hw : nth s.waiters i with
    | none => rw [hw] at hs; cases hs
    | some b =>
      rw [hw] at hs
      cases b with
      | true => cases hs
      | false =>
        have hsum := sumBy_setN hw (fun w => if w = true then 0 else 1) true
        simp at hsum
        replace hs : ((if 0 < s.doneBuf then
            some { s with doneBuf := s.doneBuf - 1, waiters := setN s.waiters i true }
          else if s.doneClosed = true then
            some { s with waiters := setN s.waiters i true }
          else none) = some s') := hs
        split at hs
        next =>
          injection hs with hs
          subst hs
          simp only [M]
          omega
        next =>
          split at hs
          next =>
            injection hs with hs
            subst hs
            simp only [M]
            omega
          next => cases hs
  | worker i =>
    replace hs : stepWorker s i = some s' := hs
    unfold stepWorker at hs
    cases hw : nth s.workers i with
    | none => rw [hw] at hs; cases hs
    | some w =>
      rw [hw] at hs
      cases w with
      | fin => cases hs
      | pending =>
        replace hs : (some
            { s with
              workers := setN s.workers i WSt.ran,
              trace := Ev.exec i :: s.trace } = some s') := hs
        injection hs with hs
        subst hs
        have hsum := sumBy_setN hw wWS WSt.ran
        simp [wWS] at hsum
        simp only [M]
        omega
      | ran =>
        replace hs : ((if s.errsBuf.length < s.loc.length then
            some
              { s with
                errsBuf := s.errsBuf ++ [(nth s.loc i).getD false],
                workers := setN s.workers i WSt.fin }
            else none) = some s') := hs
        split at hs
        case isFalse => cases hs
        case isTrue =>
          injection hs with hs
          subst hs
          have hsum := sumBy_setN hw wWS WSt.fin
          simp [wWS] at hsum
          simp only [M]
          simp only [List.length_append, List.length_cons, List.length_nil]
          omega
  | caller i =>
    replace hs : stepCaller s i = some s' := hs
    unfold stepCaller at hs
    cases hpc : nth s.callers i with
    | none => rw [hpc] at hs; cases hs
    | some pc =>
      rw [hpc] at hs
      cases pc with
      | returned => cases hs
      | atDo =>
        cases honce : s.once with
        | r =>
          rw [honce] at hs
          replace hs : ((none : Option Sys) = some s') := hs
          cases hs
        | u =>
          rw [honce] at hs
          replace hs : (some
              { s with
                once := OnceSt.r,
                loc := s.funcs,
                funcs := [],
                errsBuf := [],
                errsClosed := false,
                callers := setN s.callers i (CPC.spawn 0),
                trace := Ev.protoStart :: s.trace } = some s') := hs
          injection hs with hs
          subst hs
          obtain ⟨hloc, hwk, hwgc, hbuf, hecl, _, _, _⟩ := h.uState honce
          obtain ⟨hp0, _⟩ := h.uCallers honce
          have hlt : sumBy (wCP [] s.funcs) (setN s.callers i (CPC.spawn 0))
              < sumBy (wCP s.funcs s.loc) s.callers := by
            refine sumBy_setN_lt hpc ?_ ?_
            · intro j z hj
              have hz := bcnt_zero isProto hp0 hj
              cases z <;> simp [isProto] at hz ⊢ <;> simp [wCP]
            · simp [wCP]
          simp only [M]
          rw [hbuf, hecl]
          simp
          omega
        | d =>
          rw [honce] at hs
          replace hs : (some
              { s with
                once := OnceSt.d,
                callers := setN s.callers i CPC.returned } = some s') := hs
          injection hs with hs
          subst hs
          have hlt : sumBy (wCP s.funcs s.loc) (setN s.callers i CPC.returned)
              < sumBy (wCP s.funcs s.loc) s.callers := by
            refine sumBy_setN_lt hpc (fun j z hj => Nat.le_refl _) ?_
            simp [wCP]
          simp only [M]
          omega
      | spawn k =>
        obtain ⟨hw1, hw2, hw3, hw4, hw5⟩ := h.spawnFacts i k hpc
        replace hs : ((if k < s.loc.length then
            some
              { s with
                workers := s.workers ++ [WSt.pending],
                callers := setN s.callers i (CPC.spawn (k + 1)) }
          else
            some
              { s with
                wgc := true,
                callers := setN s.callers i CPC.recvLoop }) = some s') := hs
        split at hs
        case isTrue hk =>
          injection hs with hs
          subst hs
          have hsum := sumBy_setN hpc (wCP s.funcs s.loc) (CPC.spawn (k + 1))
          simp [wCP] at hsum
          have hws : sumBy wWS (s.workers ++ [WSt.pending])
              = sumBy wWS s.workers + 3 := by
            rw [sumBy_append]
            simp [sumBy, wWS]
          simp only [M]
          omega
        case isFalse hk =>
          injection hs with hs
          subst hs
          have hsum := sumBy_setN hpc (wCP s.funcs s.loc) CPC.recvLoop
          simp [wCP] at hsum
          simp only [M]
          rw [hw3, hw4]
          simp
          omega
      | recvLoop =>
        cases hbuf : s.errsBuf with
        | cons e rest =>
          rw [hbuf] at hs
          replace hs : (some
              { s with
                errsBuf := rest,
                trace := (if e = true then [Ev.logged] else [])
                  ++ Ev.outcome e :: s.trace } = some s') := hs
          injection hs with hs
          subst hs
          simp only [M]
          rw [hbuf]
          simp
        | nil =>
          rw [hbuf] at hs
          replace hs : ((if s.errsClosed = true then
              some
                { s with
                  errsBuf := [],
                  callers := setN s.callers i CPC.sendDone }
            else none) = some s') := hs
          split at hs
          case isFalse => cases hs
          case isTrue =>
            injection hs with hs
            subst hs
            have hsum := sumBy_setN hpc (wCP s.funcs s.loc) CPC.sendDone
            simp [wCP] at hsum
            simp only [M]
            rw [hbuf]
            simp
            omega
      | sendDone =>
        replace hs : ((if s.doneBuf = 0 ∧ s.doneClosed = false then
            some
              { s with
                doneBuf := 1,
                callers := setN s.callers i CPC.closeFin,
                trace := Ev.dSend :: s.trace }
          else none) = some s') := hs
        split at hs
        case isFalse => cases hs
        case isTrue =>
          injection hs with hs
          subst hs
          have hsum := sumBy_setN hpc (wCP s.funcs s.loc) CPC.closeFin
          simp [wCP] at hsum
          simp only [M]
          omega
      | closeFin =>
        replace hs : (some
            { s with
              doneClosed := true,
              once := OnceSt.d,
              callers := setN s.callers i CPC.returned,
              trace := Ev.dClose :: s.trace } = some s') := hs
        injection hs with hs
        subst hs
        have hsum := sumBy_setN hpc (wCP s.funcs s.loc) CPC.returned
        simp [wCP] at hsum
        simp only [M]
        omega

/-- No step introduces a watcher or a pending `Add`. -/
theorem stepThread_frame {t : Tid} {s s' : Sys} (hs : stepThread t s = some s')
    (ha : s.adder = none) (hwz : s.watchers = 0) :
    s'.adder = none ∧ s'.watchers = 0 := by
  cases t with
  | caller i =>
    replace hs : stepCaller s i = some s' := hs
    unfold stepCaller at hs
    repeat' split at hs
    all_goals cases hs
    all_goals exact ⟨ha, hwz⟩
  | worker i =>
    replace hs : stepWorker s i = some s' := hs
    unfold stepWorker at hs
    repeat' split at hs
    all_goals cases hs
    all_goals exact ⟨ha, hwz⟩
  | wgcloser =>
    replace hs : stepWgc s = some s' := hs
    unfold stepWgc at hs
    repeat' split at hs
    all_goals cases hs
    all_goals exact ⟨ha, hwz⟩
  | waiter i =>
    replace hs : stepWaiter s i = some s' := hs
    unfold stepWaiter at hs
    repeat' split at hs
    all_goals cases hs
    all_goals exact ⟨ha, hwz⟩
  | watcher =>
    replace hs : stepWatcher s = some s' := hs
    unfold stepWatcher at hs
    split at hs
    case isFalse => cases hs
    case isTrue hg =>
      rw [hwz] at hg
      exact absurd hg.1 (by omega)
  | adder =>
    replace hs : stepAdder s = some s' := hs
    unfold stepAdder at hs
    rw [ha] at hs
    cases hs

/-- Any successful schedule from a watcher-free, `Add`-free state takes
at most `M` steps: the protocol cannot run forever. -/
theorem runSched_length_le {l : List Tid} {s s' : Sys} (h : Inv s)
    (ha : s.adder = none) (hwz : s.watchers = 0)
    (hs : runSched s l = some s') : l.length + M s' ≤ M s := by
  induction l generalizing s with
  | nil =>
    unfold runSched at hs
    injection hs with hs
    subst hs
    simp
  | cons t ts ih =>
    unfold runSched at hs
    cases hst : stepThread t s with
    | none => rw [hst] at hs; cases hs
    | some s1 =>
      rw [hst] at hs
      obtain ⟨ha1, hw1⟩ := stepThread_frame hst ha hwz
      have hm := measure_decreases h ha hwz hst
      have := ih (inv_stepThread h hst) ha1 hw1 hs
      simp only [List.length_cons]
      omega

/-! ### Progress: a stuck system has completed the protocol -/

theorem bcnt_exists {α : Type} {p : α → Bool} {l : List α}
    (h : 0 < bcnt p l) : ∃ j y, nth l j = some y ∧ p y = true := by
  induction l with
  | nil => simp [bcnt] at h
  | cons x xs ih =>
    by_cases hx : p x = true
    · exact ⟨0, x, rfl, hx⟩
    · have hx' : p x = false := by revert hx; cases p x <;> simp
      have h2 : 0 < bcnt p xs := by simpa [bcnt, hx'] using h
      obtain ⟨j, y, hj, hy⟩ := ih h2
      exact ⟨j + 1, y, by simpa [nth] using hj, hy⟩

/-- In a stuck state every spawned worker has finished: a worker that
has not yet run can always run, and a worker that has run can always
send because the `errs` channel has spare capacity. -/
theorem final_workers_fin {s : Sys} (h : Inv s) (hf : Final s) :
    ∀ j w, nth s.workers j = some w → w = .fin := by
  intro j w hwj
  cases w with
  | fin => rfl
  | pending =>
    have he : (stepWorker s j).isSome = true := by
      unfold stepWorker
      rw [hwj]
      rfl
    have h0 : stepWorker s j = none := hf (Tid.worker j)
    rw [h0] at he
    cases he
  | ran =>
    have hble : s.errsBuf.length ≤ bcnt isFin s.workers := by
      have := h.bufAcct
      omega
    have hblt : bcnt isFin s.workers + 1 ≤ s.workers.length :=
      bcnt_lt_length hwj (by simp [isFin])
    have hlt : s.errsBuf.length < s.loc.length := by
      have := h.wLen
      omega
    have he : (stepWorker s j).isSome = true := by
      unfold stepWorker
      rw [hwj]
      simp [hlt]
    have h0 : stepWorker s j = none := hf (Tid.worker j)
    rw [h0] at he
    cases he

/-- In a stuck state with the `done` channel closed every waiter has
been released: `Wait` returns immediately once `done` is closed. -/
theorem final_waiters_released {s : Sys} (hf : Final s)
    (hdc : s.doneClosed = true) :
    ∀ j b, nth s.waiters j = some b → b = true := by
  intro j b hbj
  cases b with
  | true => rfl
  | false =>
    have he : (stepWaiter s j).isSome = true := by
      unfold stepWaiter
      rw [hbj]
      by_cases hdb : 0 < s.doneBuf
      · simp [hdb]
      · simp [hdb, hdc]
    have h0 : stepWaiter s j = none := hf (Tid.waiter j)
    rw [h0] at he
    cases he

/-- A stuck state with at least one `CloseAll` caller has consumed the
`once` latch completely: the protocol ran to the end. -/
theorem final_once_d {s : Sys} (h : Inv s) (hf : Final s)
    (hc : 0 < s.callers.length) : s.once = .d := by
  cases honce : s.once with
  | d => rfl
  | u =>
    obtain ⟨pc0, hpc0⟩ := nth_of_lt hc
    have hnp := bcnt_zero isProto (h.uCallers honce).1 hpc0
    have hnr := bcnt_zero isRet (h.uCallers honce).2 hpc0
    have hat : pc0 = .atDo := by
      cases pc0 <;> simp [isProto, isRet] at hnp hnr ⊢
    subst hat
    have he : (stepCaller s 0).isSome = true := by
      unfold stepCaller
      rw [hpc0, honce]
      rfl
    have h0 : stepCaller s 0 = none := hf (Tid.caller 0)
    rw [h0] at he
    cases he
  | r =>
    obtain ⟨hp1, _⟩ := h.rUniq honce
    have hex : 0 < bcnt isProto s.callers := by omega
    obtain ⟨j, pc, hj, hpj⟩ := bcnt_exists hex
    exfalso
    cases pc with
    | atDo => simp [isProto] at hpj
    | returned => simp [isProto] at hpj
    | spawn k =>
      have he : (stepCaller s j).isSome = true := by
        have hrw : stepCaller s j = (if k < s.loc.length then
            some
              { s with
                workers := s.workers ++ [WSt.pending],
                callers := setN s.callers j (CPC.spawn (k + 1)) }
          else
            some
              { s with
                wgc := true,
                callers := setN s.callers j CPC.recvLoop }) := by
          unfold stepCaller
          rw [hj]
        rw [hrw]
        split <;> rfl
      have h0 : stepCaller s j = none := hf (Tid.caller j)
      rw [h0] at he
      cases he
    | closeFin =>
      have he : (stepCaller s j).isSome = true := by
        unfold stepCaller
        rw [hj]
        rfl
      have h0 : stepCaller s j = none := hf (Tid.caller j)
      rw [h0] at he
      cases he
    | sendDone =>
      obtain ⟨hclE, hbufE, hnsend⟩ := h.sendFacts j hj
      have hdb : s.doneBuf = 0 := by
        have := h.dbufLe
        omega
      have hdc : s.doneClosed = false := by
        cases hdcx : s.doneClosed
        · rfl
        · have := h.closedSend hdcx
          omega
      have he : (stepCaller s j).isSome = true := by
        unfold stepCaller
        rw [hj]
        simp [hdb, hdc]
      have h0 : stepCaller s j = none := hf (Tid.caller j)
      rw [h0] at he
      cases he
    | recvLoop =>
      obtain ⟨hwgc, hnsend⟩ := h.recvFacts j hj
      cases hbuf : s.errsBuf with
      | cons e rest =>
        have he : (stepCaller s j).isSome = true := by
          unfold stepCaller
          rw [hj, hbuf]
          rfl
        have h0 : stepCaller s j = none := hf (Tid.caller j)
        rw [h0] at he
        cases he
      | nil =>
        cases hcl : s.errsClosed with
        | true =>
          have he : (stepCaller s j).isSome = true := by
            unfold stepCaller
            rw [hj, hbuf]
            simp [hcl]
          have h0 : stepCaller s j = none := hf (Tid.caller j)
          rw [h0] at he
          cases he
        | false =>
          by_cases hall : ∀ jj w, nth s.workers jj = some w → w = .fin
          · have hallb : s.workers.all isFin = true :=
              (all_eq_forall_nth isFin s.workers).mpr
                (fun jj w hw => by rw [hall jj w hw]; simp [isFin])
            have he : (stepWgc s).isSome = true := by
              unfold stepWgc
              simp [hwgc, hcl, hallb]
            have h0 : stepWgc s = none := hf Tid.wgcloser
            rw [h0] at he
            cases he
          · push_neg at hall
            obtain ⟨jj, w, hwj, hww⟩ := hall
            have := final_workers_fin h hf jj w hwj
            exact hww this

/-- A stuck state with at least one caller: the protocol has run, the
`done` channel has been sent on and closed, all workers finished and
every outcome was received. -/
theorem final_completed {s : Sys} (h : Inv s) (hf : Final s)
    (hc : 0 < s.callers.length) :
    s.once = .d ∧ s.doneClosed = true ∧ cnt .dSend s.trace = 1 ∧
      cnt .dClose s.trace = 1 ∧ s.workers.length = s.loc.length ∧
      (∀ j w, nth s.workers j = some w → w = .fin) ∧
      outCount s.trace = s.loc.length := by
  have hd := final_once_d h hf hc
  have hdc := h.dClosed.mp hd
  have h1 := h.closedSend hdc
  obtain ⟨hclE, hbufE, hout, hwlen⟩ := h.dsendDone h1
  have hdcl : cnt .dClose s.trace = 1 := by
    have := h.dcloseAcct
    rw [hdc] at this
    simpa using this
  exact ⟨hd, hdc, h1, hdcl, hwlen, final_workers_fin h hf, hout⟩

/-- Execution counts in a stuck state: every spawned action ran exactly
once, nothing else ran at all. -/
theorem final_exec_counts {s : Sys} (h : Inv s) (hf : Final s) :
    (∀ j, j < s.workers.length → cnt (.exec j) s.trace = 1) ∧
    (∀ j, s.workers.length ≤ j → cnt (.exec j) s.trace = 0) := by
  constructor
  · intro j hj
    obtain ⟨w, hw⟩ := nth_of_lt hj
    have hwf := final_workers_fin h hf j w hw
    subst hwf
    exact h.execRun j .fin hw (by simp)
  · exact h.execNone

/-! ### Executable stuck-check and small run facts -/

theorem nth_none_le {α : Type} {l : List α} {i : Nat}
    (h : nth l i = none) : l.length ≤ i := by
  by_contra hlt
  obtain ⟨y, hy⟩ := nth_of_lt (Nat.lt_of_not_le hlt)
  rw [h] at hy
  cases hy

/-- Executable check that no thread can step. -/
def stuckB (s : Sys) : Bool :=
  ((List.range s.callers.length).all fun i => (stepCaller s i).isNone) &&
  ((List.range s.workers.length).all fun i => (stepWorker s i).isNone) &&
  (stepWgc s).isNone &&
  ((List.range s.waiters.length).all fun i => (stepWaiter s i).isNone) &&
  (stepWatcher s).isNone &&
  (stepAdder s).isNone

theorem stepCaller_none_of_le {s : Sys} {i : Nat}
    (h : s.callers.length ≤ i) : stepCaller s i = none := by
  unfold stepCaller
  rw [nth_none_of_le h]

theorem stepWorker_none_of_le {s : Sys} {i : Nat}
    (h : s.workers.length ≤ i) : stepWorker s i = none := by
  unfold stepWorker
  rw [nth_none_of_le h]

theorem stepWaiter_none_of_le {s : Sys} {i : Nat}
    (h : s.waiters.length ≤ i) : stepWaiter s i = none := by
  unfold stepWaiter
  rw [nth_none_of_le h]

theorem stuckB_final {s : Sys} (h : stuckB s = true) : Final s := by
  unfold stuckB at h
  simp only [Bool.and_eq_true, List.all_eq_true, List.mem_range,
    Option.isNone_iff_eq_none] at h
  obtain ⟨⟨⟨⟨⟨hcal, hwork⟩, hwgc⟩, hwait⟩, hwatch⟩, hadd⟩ := h
  intro t
  cases t with
  | caller i =>
    by_cases hi : i < s.callers.length
    · exact hcal i hi
    · exact stepCaller_none_of_le (Nat.le_of_not_lt hi)
  | worker i =>
    by_cases hi : i < s.workers.length
    · exact hwork i hi
    · exact stepWorker_none_of_le (Nat.le_of_not_lt hi)
  | wgcloser => exact hwgc
  | waiter i =>
    by_cases hi : i < s.waiters.length
    · exact hwait i hi
    · exact stepWaiter_none_of_le (Nat.le_of_not_lt hi)
  | watcher => exact hwatch
  | adder => exact hadd

/-- Steps never remove `CloseAll` callers. -/
theorem stepThread_callers_le {t : Tid} {s s' : Sys}
    (hs : stepThread t s = some s') :
    s.callers.length ≤ s'.callers.length := by
  cases t with
  | caller i =>
    replace hs : stepCaller s i = some s' := hs
    unfold stepCaller at hs
    repeat' split at hs
    all_goals cases hs
    all_goals simp [length_setN]
  | worker i =>
    replace hs : stepWorker s i = some s' := hs
    unfold stepWorker at hs
    repeat' split at hs
    all_goals cases hs
    all_goals simp [length_setN]
  | wgcloser =>
    replace hs : stepWgc s = some s' := hs
    unfold stepWgc at hs
    repeat' split at hs
    all_goals cases hs
    all_goals simp [length_setN]
  | waiter i =>
    replace hs : stepWaiter s i = some s' := hs
    unfold stepWaiter at hs
    repeat' split at hs
    all_goals cases hs
    all_goals simp [length_setN]
  | watcher =>
    replace hs : stepWatcher s = some s' := hs
    unfold stepWatcher at hs
    repeat' split at hs
    all_goals cases hs
    all_goals simp [length_setN]
  | adder =>
    replace hs : stepAdder s = some s' := hs
    unfold stepAdder at hs
    repeat' split at hs
    all_goals cases hs
    all_goals simp [length_setN]

theorem runSched_callers_le {l : List Tid} {s s' : Sys}
    (hs : runSched s l = some s') :
    s.callers.length ≤ s'.callers.length := by
  induction l generalizing s with
  | nil =>
    unfold runSched at hs
    injection hs with hs
    subst hs
    exact Nat.le_refl _
  | cons t ts ih =>
    unfold runSched at hs
    cases hst : stepThread t s with
    | none => rw [hst] at hs; cases hs
    | some s1 =>
      rw [hst] at hs
      exact Nat.le_trans (stepThread_callers_le hst) (ih hs)

/-- A system with no `CloseAll` caller, no watcher, and no registration
in flight can never take a step: the trigger never fires. -/
theorem mkSys_noCaller_final (fs : List Bool) (nw sp : Nat) :
    Final (mkSys fs 0 nw 0 sp none) := by
  intro t
  cases t with
  | caller i => rfl
  | worker i => rfl
  | wgcloser => rfl
  | waiter i =>
    show stepWaiter (mkSys fs 0 nw 0 sp none) i = none
    unfold stepWaiter
    cases hni : nth (mkSys fs 0 nw 0 sp none).waiters i with
    | none => rfl
    | some b =>
      have hb : b = false := by
        have : nth (List.replicate nw false) i = some b := hni
        rw [nth_replicate] at this
        split at this
        · injection this with this; exact this.symm
        · cases this
      subst hb
      simp [mkSys]
  | watcher => rfl
  | adder => rfl

/-- Nothing is reachable from a stuck state except the state itself. -/
theorem reach_final_eq {s s' : Sys} (hf : Final s) (hr : Reach s s') :
    s' = s := by
  obtain ⟨l, hl⟩ := hr
  cases l with
  | nil =>
    unfold runSched at hl
    injection hl with hl
    exact hl.symm
  | cons t ts =>
    unfold runSched at hl
    rw [hf t] at hl
    cases hl

theorem noAdd_of_reach {fs : List Bool} {nc nw nwatch sp : Nat} {s : Sys}
    (hr : Reach (mkSys fs nc nw nwatch sp none) s) : NoAdd fs s := by
  obtain ⟨l, hl⟩ := hr
  exact noAdd_runSched (inv_mkSys fs nc nw nwatch sp none)
    (noAdd_mkSys fs nc nw nwatch sp) hl

theorem callers_pos_of_reach {fs : List Bool} {nc nw nwatch sp : Nat}
    {adds : Option (List Bool)} {s : Sys} (hnc : 0 < nc)
    (hr : Reach (mkSys fs nc nw nwatch sp adds) s) :
    0 < s.callers.length := by
  obtain ⟨l, hl⟩ := hr
  have hle := runSched_callers_le hl
  have : (mkSys fs nc nw nwatch sp adds).callers.length = nc := by
    simp [mkSys]
  omega

/-! ### Concrete runs used as witnesses -/

/-- One caller, two actions (the second fails), one waiter. -/
def w1init : Sys := mkSys [false, true] 1 1 0 0 none

def w1sched : List Tid :=
  [.caller 0, .caller 0, .caller 0, .caller 0, .worker 0, .worker 0,
   .worker 1, .worker 1, .wgcloser, .caller 0, .caller 0, .caller 0,
   .caller 0, .caller 0, .waiter 0]

/-- The (stuck) state at the end of `w1sched`. -/
def w1s : Sys := (runSched w1init w1sched).getD w1init

/-- Two concurrent `CloseAll` callers, one action, no waiter. -/
def w2init : Sys := mkSys [false] 2 0 0 0 none

def w2sched : List Tid :=
  [.caller 0, .caller 0, .caller 0, .worker 0, .worker 0, .wgcloser,
   .caller 0, .caller 0, .caller 0, .caller 0, .caller 1]

/-- The (stuck) state at the end of `w2sched`. -/
def w2s : Sys := (runSched w2init w2sched).getD w2init

/-! ### The claims -/

/-- C1: For every list of N cleanup actions registered (via `Add`)
before a single call to `CloseAll`, exactly N action executions occur:
each registered action is invoked exactly once (execution count 1 for
every index below N, count 0 beyond), and exactly N worker goroutines
were launched. -/
theorem closeAll_runs_each_registered_action_once
    (fs : List Bool) (nw : Nat) (s : Sys)
    (hr : Reach (mkSys fs 1 nw 0 0 none) s) (hf : Final s) :
    (∀ i, i < fs.length → cnt (.exec i) s.trace = 1) ∧
    (∀ i, fs.length ≤ i → cnt (.exec i) s.trace = 0) ∧
    s.workers.length = fs.length := by
  have h : Inv s := inv_reach (inv_mkSys fs 1 nw 0 0 none) hr
  have hn : NoAdd fs s := noAdd_of_reach hr
  have hc : 0 < s.callers.length := callers_pos_of_reach (by omega) hr
  obtain ⟨hd, hdc, h1, hdcl, hwlen, hallf, hout⟩ := final_completed h hf hc
  have hloc : s.loc = fs := (hn.2.2 (by rw [hd]; simp)).1
  have hwfs : s.workers.length = fs.length := by rw [hwlen, hloc]
  obtain ⟨hex1, hex0⟩ := final_exec_counts h hf
  exact ⟨fun i hi => hex1 i (by omega), fun i hi => hex0 i (by omega), hwfs⟩

theorem closeAll_runs_each_registered_action_once_witness :
    cnt (.exec 0) w1s.trace = 1 ∧ cnt (.exec 1) w1s.trace = 1 ∧
    cnt (.exec 2) w1s.trace = 0 ∧ w1s.workers.length = 2 := by
  have hr : Reach (mkSys [false, true] 1 1 0 0 none) w1s :=
    ⟨w1sched, by decide⟩
  have hf : Final w1s := stuckB_final (by decide)
  obtain ⟨h1, h0, hw⟩ :=
    closeAll_runs_each_registered_action_once [false, true] 1 w1s hr hf
  exact ⟨h1 0 (by decide), h1 1 (by decide), h0 2 (by decide), hw⟩

/-- C2: For any number of concurrent or repeated `CloseAll` calls, the
protocol starts at most once and each action executes at most once ever
(and, if the system runs to completion with at least one caller,
exactly once). -/
theorem closeAll_idempotent_under_concurrent_calls
    (fs : List Bool) (nc nw : Nat) (s : Sys)
    (hr : Reach (mkSys fs nc nw 0 0 none) s) :
    cnt .protoStart s.trace ≤ 1 ∧
    (∀ i, cnt (.exec i) s.trace ≤ 1) ∧
    (Final s → 0 < nc → ∀ i, i < fs.length → cnt (.exec i) s.trace = 1) := by
  have h : Inv s := inv_reach (inv_mkSys fs nc nw 0 0 none) hr
  refine ⟨?_, ?_, ?_⟩
  · have := h.pstartAcct
    split at this <;> omega
  · intro i
    cases hnw : nth s.workers i with
    | none =>
      rw [h.execNone i (nth_none_le hnw)]
      omega
    | some w =>
      by_cases hp : w = .pending
      · subst hp
        rw [h.execPend i hnw]
        omega
      · rw [h.execRun i w hnw hp]
  · intro hf hnc i hi
    have hn : NoAdd fs s := noAdd_of_reach hr
    have hc : 0 < s.callers.length := callers_pos_of_reach hnc hr
    obtain ⟨hd, _, _, _, hwlen, _, _⟩ := final_completed h hf hc
    have hloc : s.loc = fs := (hn.2.2 (by rw [hd]; simp)).1
    have hll : s.loc.length = fs.length := by rw [hloc]
    exact (final_exec_counts h hf).1 i (by omega)

theorem closeAll_idempotent_under_concurrent_calls_witness :
    cnt .protoStart w2s.trace ≤ 1 ∧ cnt (.exec 0) w2s.trace ≤ 1 ∧
    cnt (.exec 0) w2s.trace = 1 := by
  have hr : Reach (mkSys [false] 2 0 0 0 none) w2s := ⟨w2sched, by decide⟩
  obtain ⟨hp, he, hfin⟩ :=
    closeAll_idempotent_under_concurrent_calls [false] 2 0 w2s hr
  exact ⟨hp, he 0,
    hfin (stuckB_final (by decide)) (by decide) 0 (by decide)⟩

/-- C3: The completion signal is set exactly once (one send on `done`,
one close of `done`) and only after every launched action has returned
and every outcome has been processed, each failure logged. -/
theorem done_set_once_only_after_protocol
    (fs : List Bool) (nc nw : Nat) (s : Sys)
    (hr : Reach (mkSys fs nc nw 0 0 none) s) :
    cnt .dSend s.trace ≤ 1 ∧ cnt .dClose s.trace ≤ 1 ∧
    ((0 < s.doneBuf ∨ s.doneClosed = true) →
      (∀ j w, nth s.workers j = some w → w = .fin) ∧
      s.workers.length = fs.length ∧ outCount s.trace = fs.length ∧
      cnt .logged s.trace = bcnt (fun b => b) fs) := by
  have h : Inv s := inv_reach (inv_mkSys fs nc nw 0 0 none) hr
  have hn : NoAdd fs s := noAdd_of_reach hr
  refine ⟨h.dsendLe, ?_, ?_⟩
  · have := h.dcloseAcct
    split at this <;> omega
  · intro hset
    have h1 := h.doneSet hset
    obtain ⟨hclE, hbufE, hout, hwlen⟩ := h.dsendDone h1
    have hne : s.once ≠ .u := by
      intro hu
      have htr := (h.uState hu).2.2.2.2.2.2.2
      rw [htr] at h1
      simp at h1
    have hloc := (hn.2.2 hne).1
    have hallf := (h.closedFin hclE).2
    refine ⟨hallf, by rw [hwlen, hloc], by rw [hout, hloc], ?_⟩
    have hlog := h.logAcct
    have herr := h.errAcct
    rw [hbufE] at herr
    simp [bcnt] at herr
    have hfin : finErr s.workers s.loc = bcnt (fun b => b) s.loc :=
      finErr_all_fin hallf hwlen
    rw [hlog, herr, hfin, hloc]

theorem done_set_once_only_after_protocol_witness :
    cnt .dSend w1s.trace ≤ 1 ∧ cnt .dClose w1s.trace ≤ 1 ∧
    (0 < w1s.doneBuf ∨ w1s.doneClosed = true) ∧
    w1s.workers.length = 2 ∧ outCount w1s.trace = 2 ∧
    cnt .logged w1s.trace = 1 := by
  have hr : Reach (mkSys [false, true] 1 1 0 0 none) w1s :=
    ⟨w1sched, by decide⟩
  obtain ⟨hs1, hc1, hrest⟩ :=
    done_set_once_only_after_protocol [false, true] 1 1 w1s hr
  have hset : 0 < w1s.doneBuf ∨ w1s.doneClosed = true := by
    right
    decide
  obtain ⟨_, hwl, hoc, hlg⟩ := hrest hset
  exact ⟨hs1, hc1, hset, hwl, hoc, by simpa using hlg⟩

/-- C4: `Wait` (a receive on `done`) blocks until the completion signal
is set: a released waiter implies the send on `done` already happened
with the whole protocol finished; once `done` is closed every waiting
waiter can return immediately; a released waiter never steps again
(released exactly once); and if `CloseAll` is never invoked (no caller,
no watcher) the system can take no step at all, so `Wait` blocks
forever. -/
theorem wait_blocks_until_done :
    (∀ fs nc nw s j, Reach (mkSys fs nc nw 0 0 none) s →
      nth s.waiters j = some true →
      cnt .dSend s.trace = 1 ∧
        ∀ jj w, nth s.workers jj = some w → w = .fin) ∧
    (∀ s j, s.doneClosed = true → nth s.waiters j = some false →
      (stepThread (Tid.waiter j) s).isSome = true) ∧
    (∀ s j, nth s.waiters j = some true →
      stepThread (Tid.waiter j) s = none) ∧
    (∀ fs nw sp s, Reach (mkSys fs 0 nw 0 sp none) s →
      s = mkSys fs 0 nw 0 sp none ∧
        ∀ j, stepThread (Tid.waiter j) s = none) := by
  refine ⟨?_, ?_, ?_, ?_⟩
  · intro fs nc nw s j hr hj
    have h := inv_reach (inv_mkSys fs nc nw 0 0 none) hr
    have h1 := h.waiterRel j hj
    obtain ⟨hclE, _, _, _⟩ := h.dsendDone h1
    exact ⟨h1, (h.closedFin hclE).2⟩
  · intro s j hdc hj
    show (stepWaiter s j).isSome = true
    unfold stepWaiter
    rw [hj]
    by_cases hdb : 0 < s.doneBuf
    · simp [hdb]
    · simp [hdb, hdc]
  · intro s j hj
    show stepWaiter s j = none
    unfold stepWaiter
    rw [hj]
  · intro fs nw sp s hr
    have heq := reach_final_eq (mkSys_noCaller_final fs nw sp) hr
    subst heq
    exact ⟨rfl, fun j => mkSys_noCaller_final fs nw sp (Tid.waiter j)⟩

theorem wait_blocks_until_done_witness :
    cnt .dSend w1s.trace = 1 ∧
    (stepThread (Tid.waiter 0) { w1init with doneClosed := true }).isSome
      = true ∧
    stepThread (Tid.waiter 0) w1s = none ∧
    stepThread (Tid.waiter 0) (mkSys [true] 0 2 0 0 none) = none := by
  obtain ⟨ha, hb, hc, hd⟩ := wait_blocks_until_done
  refine ⟨?_, ?_, ?_, ?_⟩
  · exact (ha [false, true] 1 1 w1s 0 ⟨w1sched, by decide⟩ (by decide)).1
  · exact hb _ 0 (by decide) (by decide)
  · exact hc w1s 0 (by decide)
  · exact (hd [true] 2 0 (mkSys [true] 0 2 0 0 none) ⟨[], rfl⟩).2 0

/-- The state after the winner of two concurrent `CloseAll` callers has
drained the list and spawned its worker, with the protocol still in
flight. -/
def w5s : Sys := (runSched (mkSys [false] 2 0 0 0 none)
  [Tid.caller 0, Tid.caller 0, Tid.caller 0]).getD (mkSys [false] 2 0 0 0 none)

/-- C5 counterexample: a second, concurrent `CloseAll` caller does not
"return immediately without blocking".  In the reachable state `w5s`
the winner is mid-protocol (`once` latch in its running state) and the
losing caller, still at its `once.Do` entry, has NO enabled step at
all: Go's `sync.Once.Do` blocks it until the winner's function
returns. -/
theorem closeAll_loser_blocked_counterexample :
    runSched (mkSys [false] 2 0 0 0 none)
        [Tid.caller 0, Tid.caller 0, Tid.caller 0] = some w5s ∧
    w5s.once = .r ∧ nth w5s.callers 1 = some .atDo ∧
    stepThread (Tid.caller 1) w5s = none := by decide

/-- C5 (amended): a repeated `CloseAll` call after the protocol has
completed returns immediately as a pure no-op (only its own pc
changes); but a concurrent caller while the protocol is running is
blocked inside `once.Do` until the winner finishes. -/
theorem closeAll_repeat_noop_but_concurrent_blocked :
    (∀ s i, s.once = .d → nth s.callers i = some .atDo →
      stepThread (Tid.caller i) s
        = some { s with callers := setN s.callers i CPC.returned }) ∧
    (∀ s i, s.once = .r → nth s.callers i = some .atDo →
      stepThread (Tid.caller i) s = none) := by
  constructor
  · intro s i hd hpc
    show stepCaller s i = _
    unfold stepCaller
    rw [hpc, hd]
  · intro s i hrr hpc
    show stepCaller s i = none
    unfold stepCaller
    rw [hpc, hrr]

theorem closeAll_repeat_noop_but_concurrent_blocked_witness :
    stepThread (Tid.caller 0) { w2init with once := OnceSt.d }
      = some
        { w2init with
          once := OnceSt.d,
          callers := setN w2init.callers 0 CPC.returned } ∧
    stepThread (Tid.caller 0) { w2init with once := OnceSt.r } = none := by
  obtain ⟨h1, h2⟩ := closeAll_repeat_noop_but_concurrent_blocked
  exact ⟨h1 _ 0 rfl (by decide), h2 _ 0 rfl (by decide)⟩

/-- C6 counterexample: the claim "when `CloseAll` returns to its first
caller, the launched actions may still be running in the background" is
false: no reachable state has the caller returned while a worker is
unfinished, because the winner's receive loop (which runs on the
calling goroutine) only ends after every worker has finished. -/
theorem closeAll_nonblocking_return_counterexample :
    ¬ ∃ s, Reach (mkSys [false] 1 1 0 0 none) s ∧
        nth s.callers 0 = some CPC.returned ∧
        ∃ j w, nth s.workers j = some w ∧ w ≠ WSt.fin := by
  rintro ⟨s, hr, hret, j, w, hw, hne⟩
  have h := inv_reach (inv_mkSys [false] 1 1 0 0 none) hr
  have hd := h.retOnce 0 hret
  have hdc := h.dClosed.mp hd
  have h1 := h.closedSend hdc
  have hclE := (h.dsendDone h1).1
  exact hne ((h.closedFin hclE).2 j w hw)

/-- C6 (amended): by the time `CloseAll` returns to any caller, every
launched action has finished, every outcome was received, and the
`done` channel is closed: `CloseAll` blocks its first caller until the
protocol completes (completion is additionally observable via
`Wait`). -/
theorem closeAll_returns_only_after_all_actions
    (fs : List Bool) (nc nw : Nat) (s : Sys) (i : Nat)
    (hr : Reach (mkSys fs nc nw 0 0 none) s)
    (hret : nth s.callers i = some CPC.returned) :
    (∀ j w, nth s.workers j = some w → w = .fin) ∧
    s.doneClosed = true ∧ s.workers.length = fs.length ∧
    outCount s.trace = fs.length := by
  have h := inv_reach (inv_mkSys fs nc nw 0 0 none) hr
  have hn := noAdd_of_reach hr
  have hd := h.retOnce i hret
  have hdc := h.dClosed.mp hd
  have h1 := h.closedSend hdc
  obtain ⟨hclE, hbufE, hout, hwlen⟩ := h.dsendDone h1
  have hloc : s.loc = fs := (hn.2.2 (by rw [hd]; simp)).1
  exact ⟨(h.closedFin hclE).2, hdc, by rw [hwlen, hloc], by rw [hout, hloc]⟩

theorem closeAll_returns_only_after_all_actions_witness :
    w2s.doneClosed = true ∧ w2s.workers.length = 1 ∧
    outCount w2s.trace = 1 := by
  have hr : Reach (mkSys [false] 2 0 0 0 none) w2s := ⟨w2sched, by decide⟩
  obtain ⟨_, hdc, hwl, hoc⟩ :=
    closeAll_returns_only_after_all_actions [false] 2 0 w2s 0 hr (by decide)
  exact ⟨hdc, hwl, hoc⟩

/-- C7: The first step of the execution protocol atomically swaps the
current action list for an empty one: after the winning caller's drain
the `Closer`'s `funcs` is empty regardless of its prior contents, and
the drained snapshot `loc` is the old list; only indices of the drained
snapshot are ever executed (so an action registered after the swap —
it lands in `funcs`, which is never drained again since `loc` is fixed
once the latch is taken — is excluded from the run). -/
theorem closeAll_drain_swaps_list_empty :
    (∀ s i s', s.once = .u → nth s.callers i = some .atDo →
      stepThread (Tid.caller i) s = some s' →
      s'.funcs = [] ∧ s'.loc = s.funcs) ∧
    (∀ fs nc nw nwatch sp adds s, Reach (mkSys fs nc nw nwatch sp adds) s →
      ∀ i, 0 < cnt (.exec i) s.trace → i < s.loc.length) ∧
    (∀ t s s', s.once ≠ .u → stepThread t s = some s' →
      s'.loc = s.loc) := by
  refine ⟨?_, ?_, ?_⟩
  · intro s i s' hu hpc hs
    replace hs : stepCaller s i = some s' := hs
    unfold stepCaller at hs
    rw [hpc, hu] at hs
    replace hs : (some
        { s with
          once := OnceSt.r,
          loc := s.funcs,
          funcs := [],
          errsBuf := [],
          errsClosed := false,
          callers := setN s.callers i (CPC.spawn 0),
          trace := Ev.protoStart :: s.trace } = some s') := hs
    injection hs with hs
    subst hs
    exact ⟨rfl, rfl⟩
  · intro fs nc nw nwatch sp adds s hr i hcnt
    have h := inv_reach (inv_mkSys fs nc nw nwatch sp adds) hr
    by_contra hge
    have hworkers : s.workers.length ≤ i := by
      have := h.wLen
      omega
    have := h.execNone i hworkers
    omega
  · intro t s s' hne hs
    have haux : s'.loc = s.loc ∨ s.once = .u := by
      cases t with
      | caller i =>
        replace hs : stepCaller s i = some s' := hs
        unfold stepCaller at hs
        repeat' split at hs
        all_goals cases hs
        all_goals first
          | exact Or.inl rfl
          | (rename_i heq; exact Or.inr heq)
      | worker i =>
        replace hs : stepWorker s i = some s' := hs
        unfold stepWorker at hs
        repeat' split at hs
        all_goals cases hs
        all_goals exact Or.inl rfl
      | wgcloser =>
        replace hs : stepWgc s = some s' := hs
        unfold stepWgc at hs
        repeat' split at hs
        all_goals cases hs
        all_goals exact Or.inl rfl
      | waiter i =>
        replace hs : stepWaiter s i = some s' := hs
        unfold stepWaiter at hs
        repeat' split at hs
        all_goals cases hs
        all_goals exact Or.inl rfl
      | watcher =>
        replace hs : stepWatcher s = some s' := hs
        unfold stepWatcher at hs
        repeat' split at hs
        all_goals cases hs
        all_goals exact Or.inl rfl
      | adder =>
        replace hs : stepAdder s = some s' := hs
        unfold stepAdder at hs
        repeat' split at hs
        all_goals cases hs
        all_goals exact Or.inl rfl
    rcases haux with h1 | h1
    · exact h1
    · exact absurd h1 hne

/-- A run in which a concurrent `Add [false]` fires after the drain:
the added action stays in `funcs` and never executes. -/
def w7init : Sys := mkSys [true] 1 0 0 0 (some [false])

def w7sched : List Tid :=
  [.caller 0, .adder, .caller 0, .caller 0, .worker 0, .worker 0,
   .wgcloser, .caller 0, .caller 0, .caller 0, .caller 0]

def w7s : Sys := (runSched w7init w7sched).getD w7init

theorem closeAll_drain_swaps_list_empty_witness :
    ((stepThread (Tid.caller 0) w7init).getD w7init).funcs = [] ∧
    ((stepThread (Tid.caller 0) w7init).getD w7init).loc = [true] ∧
    (0 < cnt (.exec 0) w7s.trace → 0 < w7s.loc.length) ∧
    ((stepThread (Tid.worker 0) w5s).getD w5s).loc = w5s.loc := by
  obtain ⟨p1, p2, p3⟩ := closeAll_drain_swaps_list_empty
  obtain ⟨hfu, hlo⟩ := p1 w7init 0 ((stepThread (Tid.caller 0) w7init).getD w7init)
    rfl (by decide) (by decide)
  refine ⟨hfu, hlo, ?_, ?_⟩
  · intro hcnt
    have := p2 [true] 1 0 0 0 (some [false]) w7s ⟨w7sched, by decide⟩ 0 hcnt
    omega
  · exact p3 (Tid.worker 0) w5s ((stepThread (Tid.worker 0) w5s).getD w5s)
      (by decide) (by decide)

/-- C8: An action returning a non-nil error is logged and otherwise
ignored: it still executes exactly once, the other actions run, the
`done` channel still closes, the number of log lines equals the number
of failing actions, and waiters are released without receiving any
error value. -/
theorem failing_action_logged_and_ignored
    (fs : List Bool) (nw : Nat) (s : Sys)
    (hr : Reach (mkSys fs 1 nw 0 0 none) s) (hf : Final s) :
    (∀ i, i < fs.length → cnt (.exec i) s.trace = 1) ∧
    cnt .logged s.trace = bcnt (fun b => b) fs ∧
    s.doneClosed = true ∧
    (∀ j b, nth s.waiters j = some b → b = true) := by
  have h := inv_reach (inv_mkSys fs 1 nw 0 0 none) hr
  have hn := noAdd_of_reach hr
  have hc := callers_pos_of_reach (by omega) hr
  obtain ⟨hd, hdc, h1, hdcl, hwlen, hallf, hout⟩ := final_completed h hf hc
  have hloc : s.loc = fs := (hn.2.2 (by rw [hd]; simp)).1
  refine ⟨?_, ?_, hdc, final_waiters_released hf hdc⟩
  · intro i hi
    have hll : s.loc.length = fs.length := by rw [hloc]
    exact (final_exec_counts h hf).1 i (by omega)
  · obtain ⟨hclE, hbufE, _, _⟩ := h.dsendDone h1
    have herr := h.errAcct
    rw [hbufE] at herr
    simp [bcnt] at herr
    have hfin := finErr_all_fin hallf hwlen
    rw [h.logAcct, herr, hfin, hloc]

theorem failing_action_logged_and_ignored_witness :
    cnt (.exec 1) w1s.trace = 1 ∧ cnt .logged w1s.trace = 1 ∧
    w1s.doneClosed = true ∧ nth w1s.waiters 0 = some true := by
  have hr : Reach (mkSys [false, true] 1 1 0 0 none) w1s :=
    ⟨w1sched, by decide⟩
  have hf : Final w1s := stuckB_final (by decide)
  obtain ⟨hex, hlg, hdc, hwt⟩ :=
    failing_action_logged_and_ignored [false, true] 1 w1s hr hf
  refine ⟨hex 1 (by decide), by simpa using hlg, hdc, ?_⟩
  have : nth w1s.waiters 0 = some true ∨ nth w1s.waiters 0 = some false ∨
      nth w1s.waiters 0 = none := by decide
  rcases this with h | h | h
  · exact h
  · have := hwt 0 false h
    cases this
  · cases (by decide : nth w1s.waiters 0 = some true) ▸ h

/-- C9: `New` with a non-empty signal set starts exactly one background
listener and with an empty set none; the listener blocks until a
watched signal is delivered; on first delivery it stops listening (no
further watcher exists, later signals are not consumed) and invokes
`CloseAll` (a fresh caller at the `once.Do` entry appears); the
delivered scenario runs the registered action exactly once and releases
`Wait` without any explicit `CloseAll` call. -/
theorem new_signal_watcher_semantics :
    (∀ sigs fs nc nw sp adds,
      (newSys sigs fs nc nw sp adds).watchers
        = (if sigs.length = 0 then 0 else 1)) ∧
    (∀ s, s.sigPending = 0 → stepThread Tid.watcher s = none) ∧
    (∀ s, s.watchers = 0 → stepThread Tid.watcher s = none) ∧
    (∀ s, 0 < s.watchers → 0 < s.sigPending →
      stepThread Tid.watcher s = some
        { s with
          watchers := s.watchers - 1,
          sigPending := s.sigPending - 1,
          callers := s.callers ++ [CPC.atDo] }) := by
  refine ⟨?_, ?_, ?_, ?_⟩
  · intro sigs fs nc nw sp adds
    cases sigs <;> simp [newSys, mkSys]
  · intro s hsp
    show stepWatcher s = none
    unfold stepWatcher
    rw [hsp]
    simp
  · intro s hw
    show stepWatcher s = none
    unfold stepWatcher
    rw [hw]
    simp
  · intro s h1 h2
    show stepWatcher s = _
    unfold stepWatcher
    rw [if_pos ⟨h1, h2⟩]

/-- The spec's signal scenario: one watched signal, one registered
action, one waiter, no manual trigger; the signal is delivered. -/
def w9init : Sys := newSys [15] [false] 0 1 1 none

def w9sched : List Tid :=
  [.watcher, .caller 0, .caller 0, .caller 0, .worker 0, .worker 0,
   .wgcloser, .caller 0, .caller 0, .caller 0, .caller 0, .waiter 0]

def w9s : Sys := (runSched w9init w9sched).getD w9init

theorem new_signal_watcher_semantics_witness :
    (newSys [15] [false] 0 1 1 none).watchers = 1 ∧
    (newSys ([] : List Nat) [false] 0 1 0 none).watchers = 0 ∧
    stepThread Tid.watcher (mkSys [false] 0 1 1 0 none) = none ∧
    stepThread Tid.watcher w9s = none ∧
    stepThread Tid.watcher w9init = some
      { w9init with
        watchers := 0,
        sigPending := 0,
        callers := [CPC.atDo] } ∧
    runSched w9init w9sched = some w9s ∧
    cnt (.exec 0) w9s.trace = 1 ∧ nth w9s.waiters 0 = some true := by
  obtain ⟨p1, p2, p3, p4⟩ := new_signal_watcher_semantics
  refine ⟨?_, ?_, ?_, ?_, ?_, by decide, by decide, by decide⟩
  · have := p1 [15] [false] 0 1 1 none
    simpa using this
  · have := p1 ([] : List Nat) [false] 0 1 0 none
    simpa using this
  · exact p2 _ rfl
  · exact p3 w9s (by decide)
  · have := p4 w9init (by decide) (by decide)
    rw [this]
    decide

/-- C10: Provided every drained action terminates (actions are atomic
in the model), the protocol always terminates — any schedule runs for
at most `M` of the initial state — and a stuck state reached with one
caller and NO waiters has sent on and closed `done`: the buffered
channels (`errs` capacity = number of drained actions, `done` capacity
1) guarantee a worker's send and the final `done` send are always
enabled when reached, so no send blocks on an absent receiver. -/
theorem closeAll_terminates_and_completes (fs : List Bool) (nw : Nat) :
    (∀ l s, runSched (mkSys fs 1 nw 0 0 none) l = some s →
      l.length ≤ M (mkSys fs 1 nw 0 0 none)) ∧
    (∀ s, Reach (mkSys fs 1 0 0 0 none) s → Final s →
      s.doneClosed = true ∧ cnt .dSend s.trace = 1 ∧
        cnt .dClose s.trace = 1) ∧
    (∀ s, Reach (mkSys fs 1 nw 0 0 none) s →
      s.errsBuf.length ≤ s.loc.length ∧ s.doneBuf ≤ 1 ∧
      (∀ i, nth s.workers i = some .ran →
        (stepThread (Tid.worker i) s).isSome = true) ∧
      (∀ i, nth s.callers i = some .sendDone →
        (stepThread (Tid.caller i) s).isSome = true)) := by
  refine ⟨?_, ?_, ?_⟩
  · intro l s hl
    have := runSched_length_le (inv_mkSys fs 1 nw 0 0 none) rfl rfl hl
    omega
  · intro s hr hf
    have h := inv_reach (inv_mkSys fs 1 0 0 0 none) hr
    have hc := callers_pos_of_reach (by omega) hr
    obtain ⟨_, hdc, h1, hdcl, _, _, _⟩ := final_completed h hf hc
    exact ⟨hdc, h1, hdcl⟩
  · intro s hr
    have h := inv_reach (inv_mkSys fs 1 nw 0 0 none) hr
    refine ⟨?_, ?_, ?_, ?_⟩
    · have h1 := h.bufAcct
      have h2 := bcnt_le_length isFin s.workers
      have h3 := h.wLen
      omega
    · have h1 := h.dbufLe
      have h2 := h.dsendLe
      omega
    · intro i hwi
      have hble : s.errsBuf.length ≤ bcnt isFin s.workers := by
        have := h.bufAcct
        omega
      have hblt : bcnt isFin s.workers + 1 ≤ s.workers.length :=
        bcnt_lt_length hwi (by simp [isFin])
      have hlt : s.errsBuf.length < s.loc.length := by
        have := h.wLen
        omega
      show (stepWorker s i).isSome = true
      unfold stepWorker
      rw [hwi]
      simp [hlt]
    · intro i hci
      obtain ⟨hclE, hbufE, hnsend⟩ := h.sendFacts i hci
      have hdb : s.doneBuf = 0 := by
        have := h.dbufLe
        omega
      have hdc : s.doneClosed = false := by
        cases hx : s.doneClosed
        · rfl
        · have := h.closedSend hx
          omega
      show (stepCaller s i).isSome = true
      unfold stepCaller
      rw [hci]
      simp [hdb, hdc]

def w10sched : List Tid :=
  [.caller 0, .caller 0, .caller 0, .worker 0, .worker 0, .wgcloser,
   .caller 0, .caller 0, .caller 0, .caller 0]

def w10s : Sys :=
  (runSched (mkSys [false] 1 0 0 0 none) w10sched).getD
    (mkSys [false] 1 0 0 0 none)

theorem closeAll_terminates_and_completes_witness :
    w10sched.length ≤ M (mkSys [false] 1 0 0 0 none) ∧
    w10s.doneClosed = true ∧ cnt .dSend w10s.trace = 1 ∧
    w10s.errsBuf.length ≤ w10s.loc.length ∧ w10s.doneBuf ≤ 1 := by
  obtain ⟨p1, p2, p3⟩ := closeAll_terminates_and_completes [false] 0
  have hrun : runSched (mkSys [false] 1 0 0 0 none) w10sched = some w10s := by
    decide
  have hr : Reach (mkSys [false] 1 0 0 0 none) w10s := ⟨w10sched, hrun⟩
  have hf : Final w10s := stuckB_final (by decide)
  obtain ⟨hdc, h1, _⟩ := p2 w10s hr hf
  obtain ⟨hb, hdb, _, _⟩ := p3 w10s hr
  exact ⟨p1 w10sched w10s hrun, hdc, h1, hb, hdb⟩

end Closer
